import Mathlib

/-!
# terraform-ls: version-gated document synchronisation and block parser

A shallow embedding of

* `langserver/handlers/did_change.go` (`logHandler.TextDocumentDidChange`), and
* `internal/terraform/lang/parser.go` (`parser.ParseBlockFromTokens`,
  `parser.BlockTypeCandidates`, `completableBlockType`).

Collaborators that live outside these two files (the filesystem, the conversion of
editor events, the HCL block parser, the block factories, `wordBeforePos`) are taken as
parameters of the embedded functions.  Calls made on collaborators are recorded in a
call list, so that "is never invoked" is a statement about the embedding.
-/

namespace TerraformLS

/-! ## Machine integers -/

/-- Two's complement wrap-around of a mathematical integer into the range of Go's
`int` on a 64-bit platform. -/
def wrapInt64 (x : Int) : Int := (x + 2 ^ 63) % 2 ^ 64 - 2 ^ 63

/-- Values of Go's `int` (64 bits, signed). -/
def GoInt : Type := { x : Int // -(2 ^ 63) ≤ x ∧ x < 2 ^ 63 }

instance : DecidableEq GoInt := by unfold GoInt; infer_instance

/-- Conversion of an integer to a Go `int` (wrapping, as Go's conversions do). -/
def GoInt.ofInt (x : Int) : GoInt :=
  ⟨wrapInt64 x, by unfold wrapInt64; constructor <;> omega⟩

/-! ## `langserver/handlers/did_change.go` -/

/-- The `VersionedTextDocumentIdentifier` of the handler's parameters; it is also what
`ilsp.VersionedFileHandler` wraps into the file handle `fh`. -/
structure VersionedTextDocumentIdentifier where
  URI : String
  Version : GoInt
deriving DecidableEq

/-- The `DidChangeTextDocumentParams` of the handler, over the type `Ev` of
`lsp.TextDocumentContentChangeEvent`. -/
structure DidChangeTextDocumentParams (Ev : Type) where
  TextDocument : VersionedTextDocumentIdentifier
  ContentChanges : List Ev

/-- The methods of the filesystem (and of the file it returns) that the handler uses.
`σ` is the state of the filesystem, `F` the type of files, `Ch` the type of converted
changes, `E` the type of errors.  `GetFile` reads the state, `Change` may replace it and
may report an error. -/
structure Filesystem (σ F Ch E : Type) where
  GetFile : σ → VersionedTextDocumentIdentifier → Except E F
  Version : F → GoInt
  Change : σ → VersionedTextDocumentIdentifier → Ch → σ × Option E

/-- A call made by the handler on one of its collaborators. -/
inductive Call (Ev Ch : Type) where
  | GetFile (fh : VersionedTextDocumentIdentifier)
  | Printf (format : String) (incoming current : GoInt)
  | FileChanges (events : List Ev)
  | Change (fh : VersionedTextDocumentIdentifier) (changes : Ch)

/-- Whether a call is a call of the filesystem's `Change`. -/
def Call.isChange {Ev Ch : Type} : Call Ev Ch → Bool
  | .Change _ _ => true
  | _ => false

/-- Whether a call is a call of `ilsp.FileChanges`. -/
def Call.isFileChanges {Ev Ch : Type} : Call Ev Ch → Bool
  | .FileChanges _ => true
  | _ => false

/-- What one run of the handler leaves behind: the returned error (`none` is `nil`),
the state of the filesystem, and the calls made, in order. -/
structure Outcome (σ Ev Ch E : Type) where
  err : Option E
  fs : σ
  calls : List (Call Ev Ch)

/-- The handler `logHandler.TextDocumentDidChange`.  `ctx` is the result of
`lsctx.Filesystem(ctx)`; `FileChanges` is `ilsp.FileChanges`; `st` is the state of the
filesystem when the handler starts.  `f.Version()+1` wraps around as Go's `int` does. -/
def TextDocumentDidChange {σ F Ev Ch E : Type}
    (ctx : Except E (Filesystem σ F Ch E))
    (FileChanges : List Ev → F → Except E Ch)
    (params : DidChangeTextDocumentParams Ev) (st : σ) : Outcome σ Ev Ch E :=
  let p : DidChangeTextDocumentParams Ev :=
    { TextDocument := { URI := params.TextDocument.URI, Version := params.TextDocument.Version },
      ContentChanges := params.ContentChanges }
  match ctx with
  | .error err => ⟨some err, st, []⟩
  | .ok fs =>
    let fh := p.TextDocument
    match fs.GetFile st fh with
    | .error err => ⟨some err, st, [.GetFile fh]⟩
    | .ok f =>
      if p.TextDocument.Version.val ≤ (fs.Version f).val then
        ⟨none, st,
          [.GetFile fh,
           .Printf "skip old version %d change: %#v, current file version %d"
             p.TextDocument.Version (fs.Version f)]⟩
      else if p.TextDocument.Version.val > wrapInt64 ((fs.Version f).val + 1) then
        ⟨none, st,
          [.GetFile fh,
           .Printf "missing version %d change: %#v, current file version %d"
             p.TextDocument.Version (fs.Version f)]⟩
      else
        match FileChanges params.ContentChanges f with
        | .error err => ⟨some err, st, [.GetFile fh, .FileChanges params.ContentChanges]⟩
        | .ok changes =>
          let r := fs.Change st fh changes
          ⟨r.2, r.1, [.GetFile fh, .FileChanges params.ContentChanges, .Change fh changes]⟩

/-! ### The document store (outside the two source files) -/

/-- Modelled from the spec: the `VersionedDocument` of the document store (section 3),
the current full text and the version of one open document; the `uri` is the key under
which the store holds it. -/
structure Document where
  text : String
  version : GoInt
deriving DecidableEq

/-- Modelled from the spec: the `VersionedDocument store`, at most one document per
`uri` (section 3: "unique key"). -/
def Store : Type := String → Option Document

/-- Modelled from the spec: a `ChangeEvent` (section 3), "either a full-text
replacement, or a range (start/end position ...) + newText replacing that range"; the
range is taken in offset form, counted in characters. -/
inductive ChangeEvent where
  | full (newText : String)
  | range (start stop : Nat) (newText : String)
deriving DecidableEq

/-- Errors of the document store and of the change applicator. -/
inductive FsError where
  | missingFilesystem
  | notOpen (uri : String)
  | invalidChange (reason : String)
  | rangeOutOfBounds (start stop length : Nat)
deriving DecidableEq

/-- Modelled from the spec: the application of one change to a text; it fails when
the "change range [is] outside current text bounds" (section 4.1). -/
def applyChange (text : String) : ChangeEvent → Except FsError String
  | .full newText => .ok newText
  | .range start stop newText =>
    if start ≤ stop ∧ stop ≤ text.length then
      .ok (text.take start ++ newText ++ text.drop stop)
    else .error (.rangeOutOfBounds start stop text.length)

/-- Modelled from the spec: the `ChangeApplicator` (section 4.1), which "transforms the
stored text using the change list in the order given (each change's range is interpreted
against the document state produced by applying all previous changes in the same
batch)" and fails as soon as one change fails. -/
def applyChanges (text : String) : List ChangeEvent → Except FsError String
  | [] => .ok text
  | c :: cs =>
    match applyChange text c with
    | .error e => .error e
    | .ok t => applyChanges t cs

/-- Modelled from the spec: the lookup `GetFile` of the document store; it fails for a
document that is not open. -/
def Store.GetFile (s : Store) (fh : VersionedTextDocumentIdentifier) :
    Except FsError Document :=
  match s fh.URI with
  | some d => .ok d
  | none => .error (.notOpen fh.URI)

/-- Modelled from the spec: the filesystem's `Change` (section 4.1): "on success, store
new text and set version to `incomingVersion`"; on failure the error "is reported to the
caller ... and the document is left unmodified at its prior version". -/
def Store.Change (s : Store) (fh : VersionedTextDocumentIdentifier)
    (changes : List ChangeEvent) : Store × Option FsError :=
  match s fh.URI with
  | none => (s, some (.notOpen fh.URI))
  | some d =>
    match applyChanges d.text changes with
    | .error e => (s, some e)
    | .ok t =>
      (fun u => if u = fh.URI then some { text := t, version := fh.Version } else s u, none)

/-- Modelled from the spec: the document store seen through the interface the handler
uses. -/
def storeFilesystem : Filesystem Store Document (List ChangeEvent) FsError :=
  { GetFile := Store.GetFile, Version := Document.version, Change := Store.Change }

/-- The handler run against the document store, the filesystem being present in the
context. -/
def didChange {Ev : Type} (FileChanges : List Ev → Document → Except FsError (List ChangeEvent))
    (params : DidChangeTextDocumentParams Ev) (st : Store) :
    Outcome Store Ev (List ChangeEvent) FsError :=
  TextDocumentDidChange (.ok storeFilesystem) FileChanges params st

/-- The state of the store after a sequence of notifications handled one after the
other, whatever each call returns. -/
def didChangeAll {Ev : Type}
    (FileChanges : List Ev → Document → Except FsError (List ChangeEvent))
    (st : Store) : List (DidChangeTextDocumentParams Ev) → Store
  | [] => st
  | p :: ps => didChangeAll FileChanges (didChange FileChanges p st).fs ps

/-- The errors returned by the calls of a sequence of notifications handled one after
the other, in order (`none` is `nil`). -/
def didChangeErrors {Ev : Type}
    (FileChanges : List Ev → Document → Except FsError (List ChangeEvent))
    (st : Store) : List (DidChangeTextDocumentParams Ev) → List (Option FsError)
  | [] => []
  | p :: ps =>
    (didChange FileChanges p st).err :: didChangeErrors FileChanges (didChange FileChanges p st).fs ps

/-- The stored version of a document, if it is open. -/
def Store.versionOf (s : Store) (uri : String) : Option Int :=
  (s uri).map (fun d => d.version.val)

/-- A store holding one document. -/
def Store.single (uri text : String) (version : GoInt) : Store :=
  fun u => if u = uri then some { text := text, version := version } else none

/-- The version gate on its own: the stored version after a notification with version
`n` whose changes apply, starting from the stored version `cur`. -/
def gateStep (cur n : Int) : Int := if n = cur + 1 then n else cur

/-- The version gate over a sequence of incoming versions, in processing order. -/
def gateFold (s : Int) : List Int → Int
  | [] => s
  | n :: ns => gateFold (gateStep s n) ns

/-- The incoming versions of a sequence of notifications, in processing order. -/
def incomingVersions {Ev : Type} (calls : List (DidChangeTextDocumentParams Ev)) : List Int :=
  calls.map (fun p => p.TextDocument.Version.val)

/-! ## `internal/terraform/lang/parser.go` -/

/-- The destination of a `log.Logger`; `Discard` is `ioutil.Discard`. -/
inductive Writer where
  | Discard
  | named (name : String)
deriving DecidableEq

/-- A `*log.Logger` as `log.New(out, prefix, flag)` builds it. -/
structure Logger where
  out : Writer
  pfx : String
  flag : GoInt
deriving DecidableEq

/-- The constant `parserVersionConstraint`. -/
def parserVersionConstraint : String := ">= 0.12.0"

/-- The struct `parser`, over the type `S` of schema readers; a `nil` schema reader is
`none`. -/
structure parser (S : Type) where
  logger : Logger
  schemaReader : Option S

/-- The function `discardLog`. -/
def discardLog : Logger := { out := .Discard, pfx := "", flag := GoInt.ofInt 0 }

/-- The function `newParser`. -/
def newParser {S : Type} : parser S :=
  { logger := { out := .Discard, pfx := "", flag := GoInt.ofInt 0 }, schemaReader := none }

/-- The method `parser.SetLogger`. -/
def parser.SetLogger {S : Type} (p : parser S) (logger : Logger) : parser S :=
  { p with logger := logger }

/-- The method `parser.SetSchemaReader`. -/
def parser.SetSchemaReader {S : Type} (p : parser S) (sr : Option S) : parser S :=
  { p with schemaReader := sr }

/-- The three implementations of the interface `configBlockFactory` that `blockTypes`
builds, each with its logger and its schema reader. -/
inductive configBlockFactory (S : Type) where
  | providerBlockFactory (logger : Logger) (schemaReader : Option S)
  | resourceBlockFactory (logger : Logger) (schemaReader : Option S)
  | datasourceBlockFactory (logger : Logger) (schemaReader : Option S)

/-- The methods of the interface `configBlockFactory` that the parser calls; they are
defined with the factories, outside `parser.go`.  `New` returns Go's pair of a block
(`none` is `nil`) and an error (`none` is `nil`). -/
structure FactoryMethods (S Tok B ε LS MC : Type) where
  New : configBlockFactory S → List Tok → Option B × Option ε
  LabelSchema : configBlockFactory S → LS
  Documentation : configBlockFactory S → MC

/-- The method `parser.blockTypes`: a Go map, held as the list of its entries; the keys
are distinct. -/
def parser.blockTypes {S : Type} (p : parser S) : List (String × configBlockFactory S) :=
  [("provider", .providerBlockFactory p.logger p.schemaReader),
   ("resource", .resourceBlockFactory p.logger p.schemaReader),
   ("data", .datasourceBlockFactory p.logger p.schemaReader)]

/-- The entries of a Go map in the order a `range` loop visits them.  The order is not
fixed by the language; `order` lists the keys in the order of one run. -/
def rangeMap {V : Type} (order : List String) (m : List (String × V)) : List (String × V) :=
  order.filterMap (fun k => (m.lookup k).map (fun v => (k, v)))

/-- Go's `strings.HasPrefix(s, prefix)`.  Go compares bytes; on UTF-8 encoded text a
byte sequence starts with another exactly when the sequence of characters does. -/
def HasPrefix (s pre : String) : Bool := pre.data.isPrefixOf s.data

/-- Go's `len` of a string: its length in bytes. -/
def len (s : String) : Int := s.utf8ByteSize

/-- The struct `hcl.Pos`. -/
structure Pos where
  Line : GoInt
  Column : GoInt
  Byte : GoInt
deriving DecidableEq

/-- The struct `hcl.Range`. -/
structure Range where
  Filename : String
  Start : Pos
  End : Pos
deriving DecidableEq

/-- The struct `completableBlockType`, over the types `LS` of label schemas and `MC` of
markup content; `pfx` is its field `prefix`. -/
structure completableBlockType (LS MC : Type) where
  TypeName : String
  LabelSchema : LS
  documentation : MC
  pfx : String
  pos : Pos

/-- The method `completableBlockType.Label`. -/
def completableBlockType.Label {LS MC : Type} (bt : completableBlockType LS MC) : String :=
  bt.TypeName

/-- The method `completableBlockType.Snippet`; `snippetForBlock` is defined outside
`parser.go`. -/
def completableBlockType.Snippet {LS MC : Type} (snippetForBlock : String → LS → String)
    (bt : completableBlockType LS MC) : String :=
  snippetForBlock bt.TypeName bt.LabelSchema

/-- The method `completableBlockType.Detail`. -/
def completableBlockType.Detail {LS MC : Type} (_bt : completableBlockType LS MC) : String :=
  ""

/-- The method `completableBlockType.Documentation`. -/
def completableBlockType.Documentation {LS MC : Type} (bt : completableBlockType LS MC) : MC :=
  bt.documentation

/-- The method `completableBlockType.SetPrefix`. -/
def completableBlockType.SetPrefix {LS MC : Type} (bt : completableBlockType LS MC)
    (pre : String) : completableBlockType LS MC :=
  { bt with pfx := pre }

/-- The method `completableBlockType.PrefixRange`; the subtraction wraps around as Go's
`int` does, and the fields the literal leaves out are zero. -/
def completableBlockType.PrefixRange {LS MC : Type} (bt : completableBlockType LS MC) : Range :=
  { Filename := "",
    Start :=
      { Line := bt.pos.Line,
        Column := GoInt.ofInt (bt.pos.Column.val - len bt.pfx),
        Byte := GoInt.ofInt 0 },
    End := bt.pos }

/-- The loop of `BlockTypeCandidates` over the visited entries of the map; `acc` is
`list.candidates`. -/
def candidatesLoop {S Tok B ε LS MC : Type} (m : FactoryMethods S Tok B ε LS MC)
    (pre : String) (pos : Pos) :
    List (String × configBlockFactory S) → List (completableBlockType LS MC) →
      List (completableBlockType LS MC)
  | [], acc => acc
  | (name, t) :: rest, acc =>
    if !HasPrefix name pre then
      candidatesLoop m pre pos rest acc
    else
      candidatesLoop m pre pos rest
        (acc ++ [{ TypeName := name,
                   LabelSchema := m.LabelSchema t,
                   documentation := m.Documentation t,
                   pfx := pre,
                   pos := pos }])

/-- The method `parser.BlockTypeCandidates`; `wordBeforePos` is defined outside
`parser.go`, `order` is the order in which this run of the `range` loop visits the keys
of the map. -/
def parser.BlockTypeCandidates {S Tok B ε LS MC : Type} (m : FactoryMethods S Tok B ε LS MC)
    (wordBeforePos : List Tok → Pos → String) (order : List String)
    (p : parser S) (tokens : List Tok) (pos : Pos) : List (completableBlockType LS MC) :=
  let bTypes := p.blockTypes
  let pre := wordBeforePos tokens pos
  candidatesLoop m pre pos (rangeMap order bTypes) []

/-- The part of `hclsyntax.Block` that the parser reads: `Type_` is its field `Type`. -/
structure Block where
  Type_ : String
deriving DecidableEq

/-- The errors `ParseBlockFromTokens` returns: the value `EmptyConfigErr`, an
`unknownBlockTypeErr`, or the error that `fmt.Errorf` builds around a cause (its
message and the error it unwraps to).  `ε` is the type of the errors of the factories. -/
inductive ParseError (ε : Type) where
  | EmptyConfigErr
  | unknownBlockTypeErr (BlockType : String)
  | wrapError (msg : String) (err : ε)
deriving DecidableEq

/-- Go's `errors.Unwrap` on the error built by `fmt.Errorf` with `%w`. -/
def ParseError.Unwrap {ε : Type} : ParseError ε → Option ε
  | .wrapError _ err => some err
  | _ => none

/-- A call made by `ParseBlockFromTokens` on one of its collaborators. -/
inductive ParserCall (S Tok : Type) where
  | hclParseBlockFromTokens (tokens : List Tok)
  | Printf (format : String) (arg : String)
  | New (f : configBlockFactory S) (tokens : List Tok)

/-- Whether a call is a call of a factory's `New`. -/
def ParserCall.isNew {S Tok : Type} : ParserCall S Tok → Bool
  | .New _ _ => true
  | _ => false

/-- How a call of `ParseBlockFromTokens` ends: it returns Go's pair of a block and an
error (`none` is `nil`), or it panics on a block that is not there. -/
inductive ParseResult (B ε : Type) where
  | returned (block : Option B) (err : Option (ParseError ε))
  | panicked

/-- The result of a call of `ParseBlockFromTokens` and the calls it made, in order. -/
structure ParseOutcome (S Tok B ε : Type) where
  result : ParseResult B ε
  calls : List (ParserCall S Tok)

/-- The method `parser.ParseBlockFromTokens`.  `hclParse` is
`hclsyntax.ParseBlockFromTokens`, with `none` for a block that is not there (the
diagnostics are dropped by the caller); `Error` is the method `Error()` of the errors of
the factories. -/
def parser.ParseBlockFromTokens {S Tok B ε LS MC D : Type}
    (m : FactoryMethods S Tok B ε LS MC) (Error : ε → String)
    (hclParse : List Tok → Option Block × D)
    (p : parser S) (tokens : List Tok) : ParseOutcome S Tok B ε :=
  if tokens.length = 0 then
    ⟨.returned none (some .EmptyConfigErr), []⟩
  else
    match (hclParse tokens).1 with
    | none => ⟨.panicked, [.hclParseBlockFromTokens tokens]⟩
    | some block =>
      match p.blockTypes.lookup block.Type_ with
      | none =>
        ⟨.returned none (some (.unknownBlockTypeErr block.Type_)),
         [.hclParseBlockFromTokens tokens, .Printf "Parsed block type: %q" block.Type_]⟩
      | some f =>
        match m.New f tokens with
        | (_, some err) =>
          ⟨.returned none (some (.wrapError (block.Type_ ++ ": " ++ Error err) err)),
           [.hclParseBlockFromTokens tokens, .Printf "Parsed block type: %q" block.Type_,
            .New f tokens]⟩
        | (cfgBlock, none) =>
          ⟨.returned cfgBlock none,
           [.hclParseBlockFromTokens tokens, .Printf "Parsed block type: %q" block.Type_,
            .New f tokens]⟩

/-! ### `ParserSupportsTerraform` and `FindCompatibleParser` -/

/-- The functions of the package `go-version` that `ParserSupportsTerraform` calls, over
the types `V` of versions, `C` of constraints and `E` of the errors of the package. -/
structure VersionLibrary (V C E : Type) where
  NewVersion : String → Except E V
  NewConstraint : String → Except E C
  Check : C → V → Bool

/-- The errors `ParserSupportsTerraform` returns: an error of the version package,
handed on as it is, or an `errors.UnsupportedTerraformVersion`. -/
inductive SupportError (C E : Type) where
  | library (err : E)
  | UnsupportedTerraformVersion (Component : String) (Version : String) (Constraints : C)
deriving DecidableEq

/-- The function `ParserSupportsTerraform`; `none` is the `nil` error. -/
def ParserSupportsTerraform {V C E : Type} (lib : VersionLibrary V C E) (v : String) :
    Option (SupportError C E) :=
  match lib.NewVersion v with
  | .error err => some (.library err)
  | .ok tfVersion =>
    match lib.NewConstraint parserVersionConstraint with
    | .error err => some (.library err)
    | .ok c =>
      if !lib.Check c tfVersion then
        some (.UnsupportedTerraformVersion "parser" v c)
      else
        none

/-- The objects of type `parser` allocated so far; a `*parser` is an index into this
list. -/
def ParserHeap (S : Type) : Type := List (parser S)

/-- The function `newParser` as an allocation: `&parser{...}` is a new object, behind
all the objects allocated before. -/
def ParserHeap.newParser {S : Type} (heap : ParserHeap S) : Nat × ParserHeap S :=
  (List.length heap,
   List.append heap
     [{ logger := { out := .Discard, pfx := "", flag := GoInt.ofInt 0 }, schemaReader := none }])

/-- The object a `*parser` points to. -/
def ParserHeap.deref {S : Type} (heap : ParserHeap S) (ref : Nat) : Option (parser S) :=
  List.get? heap ref

/-- The method `parser.SetLogger` on a `*parser`: the object is changed in place. -/
def ParserHeap.SetLogger {S : Type} (heap : ParserHeap S) (ref : Nat) (logger : Logger) :
    ParserHeap S :=
  List.modify (fun p => p.SetLogger logger) ref heap

/-- The method `parser.SetSchemaReader` on a `*parser`: the object is changed in place. -/
def ParserHeap.SetSchemaReader {S : Type} (heap : ParserHeap S) (ref : Nat) (sr : Option S) :
    ParserHeap S :=
  List.modify (fun p => p.SetSchemaReader sr) ref heap

/-- The function `FindCompatibleParser`: Go's pair of a `Parser` (`none` is `nil`) and an
error (`none` is `nil`), and the objects allocated when it returns. -/
def FindCompatibleParser {S V C E : Type} (lib : VersionLibrary V C E) (v : String)
    (heap : ParserHeap S) : (Option Nat × Option (SupportError C E)) × ParserHeap S :=
  match ParserSupportsTerraform lib v with
  | some err => ((none, some err), heap)
  | none =>
    let r := heap.newParser
    ((some r.1, none), r.2)

/-! ### The package `go-version` (outside the repository) -/

/-- The struct `Version` of the package `go-version`: the numeric segments (at least
three), the pre-release and the metadata; an empty text is "none". -/
structure GoVersion where
  segments : List Nat
  pre : String
  metadata : String
deriving DecidableEq

/-- The errors of the package `go-version`: a version that does not parse (the spec's
kind `InvalidVersion`, for a malformed text and for a segment out of range alike) and a
constraint that does not parse. -/
inductive VersionError where
  | InvalidVersion (v : String)
  | InvalidConstraint (c : String)
deriving DecidableEq

/-- The number written by a sequence of decimal digits, read from the left with `acc`
the number read so far. -/
def readDigits (acc : Nat) : List Char → Option Nat
  | [] => some acc
  | c :: cs => if c.isDigit then readDigits (acc * 10 + (c.toNat - 48)) cs else none

/-- Go's `strconv.ParseInt(s, 10, 64)` on a non-empty sequence of digits: the number, or
nothing when it is above the greatest 64-bit integer. -/
def readNumber (cs : List Char) : Option Nat :=
  if cs = [] then none
  else
    match readDigits 0 cs with
    | some n => if n < 2 ^ 63 then some n else none
    | none => none

/-- The pieces of a text between its dots. -/
def splitDots : List Char → List (List Char)
  | [] => [[]]
  | c :: cs =>
    if c = '.' then [] :: splitDots cs
    else
      match splitDots cs with
      | [] => [[c]]
      | piece :: pieces => (c :: piece) :: pieces

/-- The class `[0-9A-Za-z\-~]` of the pattern of versions. -/
def isWordChar (c : Char) : Bool := c.isAlphanum || c = '-' || c = '~'

/-- Whether a text matches `[0-9A-Za-z\-~]+(\.[0-9A-Za-z\-~]+)*`: non-empty pieces of
word characters, separated by dots. -/
def isDotted (cs : List Char) : Bool :=
  (splitDots cs).all (fun piece => !piece.isEmpty && piece.all isWordChar)

/-- The numeric part `[0-9]+(\.[0-9]+)*` at the head of a text whose first character is
a digit: the groups of digits and what is left of the text.  `cur` is the group being
read, `done` the groups read. -/
def readSegments (cur : List Char) (done : List (List Char)) :
    List Char → List (List Char) × List Char
  | [] => (done ++ [cur], [])
  | c :: rest =>
    if c.isDigit then readSegments (cur ++ [c]) done rest
    else if c = '.' then
      match rest with
      | d :: _ =>
        if d.isDigit then readSegments [] (done ++ [cur]) rest else (done ++ [cur], c :: rest)
      | [] => (done ++ [cur], c :: rest)
    else (done ++ [cur], c :: rest)

/-- The segments of a version, padded with zeros to three ("if we got less than three,
pad it with 0s"). -/
def padSegments (segments : List Nat) : List Nat :=
  segments ++ List.replicate (3 - segments.length) 0

/-- The pre-release of a version, from the text between the segments and the metadata:
after a hyphen everything that follows, if that is a dotted text; otherwise the text
itself, which must be a dotted text that does not start with a digit.  The empty text is
no pre-release. -/
def readPrerelease (cs : List Char) : Option (List Char) :=
  match cs with
  | [] => some []
  | '-' :: body => if isDotted body then some body else if isDotted cs then some cs else none
  | _ => if isDotted cs then some cs else none

/-- The metadata of a version, from the text behind the pre-release: nothing, or a plus
sign and a dotted text. -/
def readMetadata (cs : List Char) : Option (List Char) :=
  match cs with
  | [] => some []
  | '+' :: body => if isDotted body then some body else none
  | _ => none

/-- The function `NewVersion` of the package `go-version`, which matches the whole text
against `v?SEGMENTS(PRERELEASE)?(+METADATA)?`, reads every segment as a 64-bit integer
and pads the segments to three; `none` when the text is not a version. -/
def parseVersion (v : String) : Option GoVersion :=
  let cs := match v.data with
    | 'v' :: rest => rest
    | other => other
  match cs with
  | [] => none
  | c :: _ =>
    if !c.isDigit then none
    else
      let r := readSegments [] [] cs
      match r.1.mapM readNumber with
      | none => none
      | some segments =>
        let broken := r.2.span (fun x => x != '+')
        match readPrerelease broken.1, readMetadata broken.2 with
        | some pre, some metadata =>
          some { segments := padSegments segments, pre := String.mk pre,
                 metadata := String.mk metadata }
        | _, _ => none

/-- The comparison of the segments of two versions in `Version.Compare`: segment by
segment, a version with fewer segments being equal to one that goes on with zeros
only. -/
def compareSegments : List Nat → List Nat → Ordering
  | [], [] => .eq
  | [], b :: bs => if (b :: bs).all (fun x => x == 0) then .eq else .lt
  | a :: as, [] => if (a :: as).all (fun x => x == 0) then .eq else .gt
  | a :: as, b :: bs =>
    if a = b then compareSegments as bs else if a < b then .lt else .gt

/-- A constraint of the package `go-version` of the one form the program uses: the
operator `>=` and a version without pre-release. -/
structure Constraint where
  lower : GoVersion
deriving DecidableEq

/-- The function `NewConstraint` of the package `go-version` on a constraint
`>= VERSION`, the version without pre-release; other operators, lists of constraints and
constraints with a pre-release are not read here. -/
def parseConstraint (c : String) : Option Constraint :=
  match c.data with
  | '>' :: '=' :: ' ' :: rest =>
    match parseVersion (String.mk rest) with
    | some lower => if lower.pre = "" then some { lower := lower } else none
    | none => none
  | _ => none

/-- The method `Constraints.Check` of the package `go-version` for the operator `>=` and
a constraint without pre-release: "a constraint without a pre-release can only match a
version without a pre-release", and then the version must not compare below the
constraint. -/
def checkConstraint (c : Constraint) (v : GoVersion) : Bool :=
  decide (v.pre = "" ∧ compareSegments v.segments c.lower.segments ≠ .lt)

/-- The package `go-version` as the version library of the program. -/
def goVersionLibrary : VersionLibrary GoVersion Constraint VersionError :=
  { NewVersion := fun v =>
      match parseVersion v with
      | some ver => .ok ver
      | none => .error (.InvalidVersion v),
    NewConstraint := fun c =>
      match parseConstraint c with
      | some b => .ok b
      | none => .error (.InvalidConstraint c),
    Check := checkConstraint }

/-- The constraint `>= 0.12.0` as the package `go-version` reads it. -/
def constraint_0_12_0 : Constraint :=
  { lower := { segments := [0, 12, 0], pre := "", metadata := "" } }

/-! ### Concrete inputs -/

/-- A conversion of editor events that accepts every event as it is. -/
def acceptAll : List ChangeEvent → Document → Except FsError (List ChangeEvent) :=
  fun events _ => .ok events

/-- A store with the single document `main.tf` at version 4. -/
def storeAt4 : Store := Store.single "main.tf" "resource" (GoInt.ofInt 4)

/-- A notification for `main.tf` with the given version and changes. -/
def notification (version : Int) (changes : List ChangeEvent) :
    DidChangeTextDocumentParams ChangeEvent :=
  { TextDocument := { URI := "main.tf", Version := GoInt.ofInt version },
    ContentChanges := changes }

/-- Factories for the examples: tokens are words, a block is the list of its words, and
`New` asks for as many labels as the spec gives the block type (section 4.4: one for a
provider, two for a resource and for a data source). -/
def wordFactories : FactoryMethods Unit String (List String) String Nat String :=
  { New := fun f tokens =>
      let labels : Nat :=
        match f with
        | .providerBlockFactory _ _ => 1
        | .resourceBlockFactory _ _ => 2
        | .datasourceBlockFactory _ _ => 2
      if tokens.length < labels + 1 then (none, some "missing label") else (some tokens, none),
    LabelSchema := fun f =>
      match f with
      | .providerBlockFactory _ _ => 1
      | .resourceBlockFactory _ _ => 2
      | .datasourceBlockFactory _ _ => 2,
    Documentation := fun f =>
      match f with
      | .providerBlockFactory _ _ => "A provider block"
      | .resourceBlockFactory _ _ => "A resource block"
      | .datasourceBlockFactory _ _ => "A data block" }

/-- A block parser for the examples: the block type is the first word. -/
def wordParse : List String → Option Block × Unit :=
  fun tokens => (tokens.head?.map Block.mk, ())

/-- Whether a word opens the labels or the body of a block: a quoted label, an opening
brace or an identifier. -/
def opensBlock (word : String) : Bool :=
  match word.data with
  | [] => false
  | c :: _ => c = Char.ofNat 34 || word = "\x7b" || c.isAlpha

/-- A block parser for the examples that, like the HCL parser on an item of a body,
finds a block, typed by the first word, only where a label, an opening brace or an
identifier follows: the tokens of an attribute such as `foo = 1`, or a lone word, give
no block. -/
def itemParse : List String → Option Block × Unit :=
  fun tokens =>
    match tokens with
    | first :: next :: _ => if opensBlock next then (some { Type_ := first }, ()) else (none, ())
    | _ => (none, ())

/-- A `wordBeforePos` for the examples: the last word. -/
def lastWord : List String → Pos → String :=
  fun tokens _ => tokens.getLastD ""

/-- A cursor position for the examples: line 1, column 6, byte 5. -/
def cursor : Pos := { Line := GoInt.ofInt 1, Column := GoInt.ofInt 6, Byte := GoInt.ofInt 5 }

/-- A candidate for the examples: the word `r` before a cursor in the least column
that Go's `int` can hold. -/
def leastColumnCandidate : completableBlockType Nat String :=
  { TypeName := "resource", LabelSchema := 2, documentation := "A resource block", pfx := "r",
    pos := { Line := GoInt.ofInt 1, Column := GoInt.ofInt (-(2 ^ 63)), Byte := GoInt.ofInt 0 } }

/-- A candidate for the examples: the word `resou` before the cursor of the examples. -/
def resouCandidate : completableBlockType Nat String :=
  { TypeName := "resource", LabelSchema := 2, documentation := "A resource block",
    pfx := "resou", pos := cursor }

/-- A logger for the examples, writing to the standard error stream. -/
def stderrLog : Logger := { out := .named "stderr", pfx := "parser: ", flag := GoInt.ofInt 3 }

/-- A store with the single document `main.tf` at the greatest version that Go's `int`
can hold. -/
def storeAtMax : Store := Store.single "main.tf" "resource" (GoInt.ofInt (2 ^ 63 - 1))

/-! ## Theorems: the version gate of `TextDocumentDidChange` -/

/-- On Go integers below the maximum, `v + 1` does not wrap. -/
theorem wrapInt64_succ_of_lt (v n : GoInt) (h : v.val < n.val) :
    wrapInt64 (v.val + 1) = v.val + 1 := by
  have hv := v.property
  have hn := n.property
  unfold wrapInt64
  omega

/-- At the maximal Go integer, `v + 1` wraps to the minimal one. -/
theorem wrapInt64_succ_le (v : GoInt) : wrapInt64 (v.val + 1) ≤ v.val + 1 := by
  have hv := v.property
  unfold wrapInt64
  omega

/-- The handler reaches the conversion of the changes exactly when the incoming version
is the successor of the stored one. -/
theorem gate_open_iff (n v : GoInt) :
    (¬ n.val ≤ v.val ∧ ¬ n.val > wrapInt64 (v.val + 1)) ↔ n.val = v.val + 1 := by
  have hv := v.property
  have hn := n.property
  unfold wrapInt64
  constructor
  · intro h
    omega
  · intro h
    omega

/-- C1 (stale skip): when the incoming version is at most the version of the stored
file, the handler returns no error, leaves the filesystem as it found it and makes no
call of `Change`; the same holds for a second call made right after the first. -/
theorem stale_skip {σ F Ev Ch E : Type} (fs : Filesystem σ F Ch E)
    (FileChanges : List Ev → F → Except E Ch)
    (params : DidChangeTextDocumentParams Ev) (st : σ) (f : F)
    (hget : fs.GetFile st params.TextDocument = .ok f)
    (hstale : params.TextDocument.Version.val ≤ (fs.Version f).val) :
    (TextDocumentDidChange (.ok fs) FileChanges params st).err = none ∧
    (TextDocumentDidChange (.ok fs) FileChanges params st).fs = st ∧
    (∀ c ∈ (TextDocumentDidChange (.ok fs) FileChanges params st).calls,
      c.isChange = false) ∧
    (TextDocumentDidChange (.ok fs) FileChanges params
      (TextDocumentDidChange (.ok fs) FileChanges params st).fs).err = none ∧
    (TextDocumentDidChange (.ok fs) FileChanges params
      (TextDocumentDidChange (.ok fs) FileChanges params st).fs).fs = st ∧
    (∀ c ∈ (TextDocumentDidChange (.ok fs) FileChanges params
      (TextDocumentDidChange (.ok fs) FileChanges params st).fs).calls,
      c.isChange = false) := by
  have h1 : TextDocumentDidChange (.ok fs) FileChanges params st =
      ⟨none, st,
        [.GetFile params.TextDocument,
         .Printf "skip old version %d change: %#v, current file version %d"
           params.TextDocument.Version (fs.Version f)]⟩ := by
    simp only [TextDocumentDidChange, hget, hstale, if_true]
  have hcalls : ∀ c ∈ ([.GetFile params.TextDocument,
         .Printf "skip old version %d change: %#v, current file version %d"
           params.TextDocument.Version (fs.Version f)] : List (Call Ev Ch)),
      c.isChange = false := by
    intro c hc
    simp only [List.mem_cons, List.mem_singleton, List.not_mem_nil, or_false] at hc
    rcases hc with rfl | rfl <;> rfl
  rw [h1]
  dsimp only
  rw [h1]
  exact ⟨rfl, rfl, hcalls, rfl, rfl, hcalls⟩

/-- C2 (gap skip): when the incoming version is above the successor of the version of
the stored file, the handler returns no error, leaves the filesystem as it found it and
calls neither `FileChanges` nor `Change`. -/
theorem gap_skip {σ F Ev Ch E : Type} (fs : Filesystem σ F Ch E)
    (FileChanges : List Ev → F → Except E Ch)
    (params : DidChangeTextDocumentParams Ev) (st : σ) (f : F)
    (hget : fs.GetFile st params.TextDocument = .ok f)
    (hgap : params.TextDocument.Version.val > (fs.Version f).val + 1) :
    (TextDocumentDidChange (.ok fs) FileChanges params st).err = none ∧
    (TextDocumentDidChange (.ok fs) FileChanges params st).fs = st ∧
    (∀ c ∈ (TextDocumentDidChange (.ok fs) FileChanges params st).calls,
      c.isChange = false ∧ c.isFileChanges = false) := by
  have hnot : ¬ params.TextDocument.Version.val ≤ (fs.Version f).val := by omega
  have hwrap : params.TextDocument.Version.val > wrapInt64 ((fs.Version f).val + 1) := by
    rw [wrapInt64_succ_of_lt (fs.Version f) params.TextDocument.Version (by omega)]
    exact hgap
  have h1 : TextDocumentDidChange (.ok fs) FileChanges params st =
      ⟨none, st,
        [.GetFile params.TextDocument,
         .Printf "missing version %d change: %#v, current file version %d"
           params.TextDocument.Version (fs.Version f)]⟩ := by
    simp only [TextDocumentDidChange, hget, hnot, hwrap, if_true, if_false]
  rw [h1]
  refine ⟨rfl, rfl, ?_⟩
  intro c hc
  simp only [List.mem_cons, List.mem_singleton, List.not_mem_nil, or_false] at hc
  rcases hc with rfl | rfl <;> exact ⟨rfl, rfl⟩

/-- What `Change` does to the store when the changes apply. -/
theorem Store.Change_ok (s : Store) (fh : VersionedTextDocumentIdentifier)
    (changes : List ChangeEvent) (d : Document) (t : String)
    (hdoc : s fh.URI = some d) (happ : applyChanges d.text changes = .ok t) :
    s.Change fh changes =
      (fun u => if u = fh.URI then some { text := t, version := fh.Version } else s u,
       none) := by
  simp only [Store.Change, hdoc, happ]

/-- What `Change` does to the store when a change fails. -/
theorem Store.Change_error (s : Store) (fh : VersionedTextDocumentIdentifier)
    (changes : List ChangeEvent) (d : Document) (e : FsError)
    (hdoc : s fh.URI = some d) (happ : applyChanges d.text changes = .error e) :
    s.Change fh changes = (s, some e) := by
  simp only [Store.Change, hdoc, happ]

/-- The run of the handler against the store when the incoming version is the
successor of the stored one: the changes are converted and, if that succeeds, handed to
`Change`. -/
theorem didChange_gate_open {Ev : Type}
    (FileChanges : List Ev → Document → Except FsError (List ChangeEvent))
    (params : DidChangeTextDocumentParams Ev) (st : Store) (d : Document)
    (hdoc : st params.TextDocument.URI = some d)
    (hnext : params.TextDocument.Version.val = d.version.val + 1) :
    didChange FileChanges params st =
      match FileChanges params.ContentChanges d with
      | .error err =>
        ⟨some err, st, [.GetFile params.TextDocument, .FileChanges params.ContentChanges]⟩
      | .ok changes =>
        ⟨(st.Change params.TextDocument changes).2, (st.Change params.TextDocument changes).1,
         [.GetFile params.TextDocument, .FileChanges params.ContentChanges,
          .Change params.TextDocument changes]⟩ := by
  have hgate := (gate_open_iff params.TextDocument.Version d.version).mpr hnext
  simp only [didChange, TextDocumentDidChange, storeFilesystem, Store.GetFile,
    hdoc, hgate.1, hgate.2, if_false]
  cases FileChanges params.ContentChanges d <;> rfl

/-- The run of the handler against the store when the incoming version is not the
successor of the stored one: nothing is returned and nothing is stored. -/
theorem didChange_gate_closed {Ev : Type}
    (FileChanges : List Ev → Document → Except FsError (List ChangeEvent))
    (params : DidChangeTextDocumentParams Ev) (st : Store) (d : Document)
    (hdoc : st params.TextDocument.URI = some d)
    (hnext : ¬ params.TextDocument.Version.val = d.version.val + 1) :
    (didChange FileChanges params st).err = none ∧
    (didChange FileChanges params st).fs = st := by
  have hgate := (gate_open_iff params.TextDocument.Version d.version).not.mpr hnext
  simp only [didChange, TextDocumentDidChange, storeFilesystem, Store.GetFile, hdoc]
  split
  · exact ⟨rfl, rfl⟩
  · rename_i h1
    split
    · exact ⟨rfl, rfl⟩
    · rename_i h2
      exact absurd ⟨h1, h2⟩ hgate

/-- C3 (apply on the next version): when the incoming version is the successor of the
stored one and the changes convert and apply, the handler returns no error, hands the
file handle with the incoming version and the converted changes to `Change`, and the
store then holds, for that document, the text obtained by applying the changes in order
and the incoming version; every other document is as before. -/
theorem apply_next_version {Ev : Type}
    (FileChanges : List Ev → Document → Except FsError (List ChangeEvent))
    (params : DidChangeTextDocumentParams Ev) (st : Store) (d : Document)
    (changes : List ChangeEvent) (t : String)
    (hdoc : st params.TextDocument.URI = some d)
    (hnext : params.TextDocument.Version.val = d.version.val + 1)
    (hconv : FileChanges params.ContentChanges d = .ok changes)
    (happly : applyChanges d.text changes = .ok t) :
    (didChange FileChanges params st).err = none ∧
    (didChange FileChanges params st).fs params.TextDocument.URI =
      some { text := t, version := params.TextDocument.Version } ∧
    (∀ u, u ≠ params.TextDocument.URI → (didChange FileChanges params st).fs u = st u) ∧
    (didChange FileChanges params st).calls =
      [.GetFile params.TextDocument, .FileChanges params.ContentChanges,
       .Change params.TextDocument changes] := by
  have hr : didChange FileChanges params st =
      ⟨(st.Change params.TextDocument changes).2, (st.Change params.TextDocument changes).1,
       [.GetFile params.TextDocument, .FileChanges params.ContentChanges,
        .Change params.TextDocument changes]⟩ := by
    rw [didChange_gate_open FileChanges params st d hdoc hnext, hconv]
  rw [hr, Store.Change_ok st params.TextDocument changes d t hdoc happly]
  refine ⟨rfl, ?_, ?_, rfl⟩
  · simp
  · intro u hu
    simp [hu]

/-- C4 (atomic commit): when the incoming version is the successor of the stored one and
either the conversion of the changes or `Change` fails with `e`, the handler returns `e`
and the store is the one it started with; when it is the conversion that fails, `Change`
is not called. -/
theorem atomic_commit {Ev : Type}
    (FileChanges : List Ev → Document → Except FsError (List ChangeEvent))
    (params : DidChangeTextDocumentParams Ev) (st : Store) (d : Document) (e : FsError)
    (hdoc : st params.TextDocument.URI = some d)
    (hnext : params.TextDocument.Version.val = d.version.val + 1)
    (hfail : FileChanges params.ContentChanges d = .error e ∨
      ∃ changes, FileChanges params.ContentChanges d = .ok changes ∧
        (Store.Change st params.TextDocument changes).2 = some e) :
    (didChange FileChanges params st).err = some e ∧
    (didChange FileChanges params st).fs = st ∧
    (FileChanges params.ContentChanges d = .error e →
      ∀ c ∈ (didChange FileChanges params st).calls, c.isChange = false) := by
  rcases hfail with hconv | ⟨changes, hconv, hchange⟩
  · have hr : didChange FileChanges params st =
        ⟨some e, st, [.GetFile params.TextDocument, .FileChanges params.ContentChanges]⟩ := by
      rw [didChange_gate_open FileChanges params st d hdoc hnext, hconv]
    rw [hr]
    refine ⟨rfl, rfl, ?_⟩
    intro _ c hc
    simp only [List.mem_cons, List.mem_singleton, List.not_mem_nil, or_false] at hc
    rcases hc with rfl | rfl <;> rfl
  · have hr : didChange FileChanges params st =
        ⟨(st.Change params.TextDocument changes).2, (st.Change params.TextDocument changes).1,
         [.GetFile params.TextDocument, .FileChanges params.ContentChanges,
          .Change params.TextDocument changes]⟩ := by
      rw [didChange_gate_open FileChanges params st d hdoc hnext, hconv]
    rw [hr]
    refine ⟨hchange, ?_, ?_⟩
    · cases happ : applyChanges d.text changes with
      | error e' => rw [Store.Change_error st _ changes d e' hdoc happ]
      | ok t =>
        rw [Store.Change_ok st _ changes d t hdoc happ] at hchange
        cases hchange
    · intro h
      rw [hconv] at h
      cases h

/-- One notification never lowers the version of any open document, and closes none. -/
theorem didChange_version_le {Ev : Type}
    (FileChanges : List Ev → Document → Except FsError (List ChangeEvent))
    (params : DidChangeTextDocumentParams Ev) (st : Store) (u : String) (d : Document)
    (hdoc : st u = some d) :
    ∃ d', (didChange FileChanges params st).fs u = some d' ∧
      d.version.val ≤ d'.version.val := by
  simp only [didChange, TextDocumentDidChange, storeFilesystem, Store.GetFile]
  cases hfile : st params.TextDocument.URI with
  | none => exact ⟨d, hdoc, le_refl _⟩
  | some f =>
    dsimp only
    split
    · exact ⟨d, hdoc, le_refl _⟩
    · rename_i hstale
      split
      · exact ⟨d, hdoc, le_refl _⟩
      · cases hconv : FileChanges params.ContentChanges f with
        | error e => exact ⟨d, hdoc, le_refl _⟩
        | ok changes =>
          dsimp only
          cases happ : applyChanges f.text changes with
          | error e =>
            rw [Store.Change_error st _ changes f e hfile happ]
            exact ⟨d, hdoc, le_refl _⟩
          | ok t =>
            rw [Store.Change_ok st _ changes f t hfile happ]
            dsimp only
            by_cases hu : u = params.TextDocument.URI
            · refine ⟨{ text := t, version := params.TextDocument.Version }, ?_, ?_⟩
              · simp [hu]
              · rw [hu, hfile] at hdoc
                cases hdoc
                dsimp only
                omega
            · exact ⟨d, by simp [hu, hdoc], le_refl _⟩

/-- Handling a sequence extended by one notification is handling the sequence and then
the notification. -/
theorem didChangeAll_append {Ev : Type}
    (FileChanges : List Ev → Document → Except FsError (List ChangeEvent))
    (calls : List (DidChangeTextDocumentParams Ev)) (p : DidChangeTextDocumentParams Ev)
    (st : Store) :
    didChangeAll FileChanges st (calls ++ [p]) =
      (didChange FileChanges p (didChangeAll FileChanges st calls)).fs := by
  induction calls generalizing st with
  | nil => rfl
  | cons c cs ih => exact ih _

/-- C5 (version monotonicity): along any sequence of notifications, handled one after
the other, the stored version of a document after the first `k + 1` calls is at least
its stored version after the first `k` calls. -/
theorem version_monotone {Ev : Type}
    (FileChanges : List Ev → Document → Except FsError (List ChangeEvent))
    (st : Store) (calls : List (DidChangeTextDocumentParams Ev)) (u : String) (k : Nat)
    (v : Int)
    (hv : (didChangeAll FileChanges st (calls.take k)).versionOf u = some v) :
    ∃ v', (didChangeAll FileChanges st (calls.take (k + 1))).versionOf u = some v' ∧
      v ≤ v' := by
  by_cases hk : k < calls.length
  · have htake : calls.take (k + 1) = calls.take k ++ [calls[k]] := by
      rw [List.take_succ, List.getElem?_eq_getElem hk]
      rfl
    rw [htake, didChangeAll_append]
    unfold Store.versionOf at hv ⊢
    cases hd : didChangeAll FileChanges st (calls.take k) u with
    | none => simp [hd] at hv
    | some d =>
      simp only [hd, Option.map_some', Option.some.injEq] at hv
      obtain ⟨d', hd', hle⟩ := didChange_version_le FileChanges calls[k] _ u d hd
      refine ⟨d'.version.val, ?_, ?_⟩
      · simp [hd']
      · omega
  · have h1 : calls.take (k + 1) = calls := List.take_of_length_le (by omega)
    have h2 : calls.take k = calls := List.take_of_length_le (by omega)
    rw [h1]
    rw [h2] at hv
    exact ⟨v, hv, le_refl _⟩

/-- The gate never lowers the version, and every version it passed through occurs among
the incoming ones. -/
theorem gateFold_bounds (vs : List Int) (s : Int) :
    s ≤ gateFold s vs ∧ ∀ k, s < k → k ≤ gateFold s vs → k ∈ vs := by
  induction vs generalizing s with
  | nil =>
    refine ⟨le_refl _, ?_⟩
    intro k h1 h2
    simp only [gateFold] at h2
    omega
  | cons n ns ih =>
    obtain ⟨h1, h2⟩ := ih (gateStep s n)
    simp only [gateFold]
    unfold gateStep at h1 h2 ⊢
    by_cases hn : n = s + 1
    · simp only [hn, if_true] at h1 h2 ⊢
      refine ⟨by omega, ?_⟩
      intro k hk1 hk2
      by_cases hk : k = s + 1
      · simp [hk]
      · exact List.mem_cons_of_mem _ (h2 k (by omega) hk2)
    · simp only [hn, if_false] at h1 h2 ⊢
      refine ⟨h1, ?_⟩
      intro k hk1 hk2
      exact List.mem_cons_of_mem _ (h2 k hk1 hk2)

/-- Processed in nondecreasing order, the gate ends at the top of the unbroken chain. -/
theorem gateFold_sorted (vs : List Int) (s m : Int)
    (hsorted : vs.Pairwise (fun a b => a ≤ b)) (hle : s ≤ m)
    (hchain : ∀ k, s < k → k ≤ m → k ∈ vs) (htop : m + 1 ∉ vs) :
    gateFold s vs = m := by
  induction vs generalizing s with
  | nil =>
    simp only [gateFold]
    by_contra hne
    have := hchain (s + 1) (by omega) (by omega)
    simp at this
  | cons n ns ih =>
    rw [List.pairwise_cons] at hsorted
    obtain ⟨hmin, hrest⟩ := hsorted
    have htop' : m + 1 ∉ ns := fun h => htop (List.mem_cons_of_mem _ h)
    have hn : m + 1 ≠ n := fun h => htop (by simp [h])
    simp only [gateFold]
    unfold gateStep
    by_cases hnext : n = s + 1
    · simp only [hnext, if_true]
      apply ih (s + 1) hrest (by omega) _ htop'
      intro k hk1 hk2
      have hk := hchain k (by omega) hk2
      rcases List.mem_cons.mp hk with h | h
      · omega
      · exact h
    · simp only [hnext, if_false]
      by_cases hms : m = s
      · apply ih s hrest hle _ htop'
        intro k hk1 hk2
        omega
      · have hs1 : s + 1 ∈ ns := by
          rcases List.mem_cons.mp (hchain (s + 1) (by omega) (by omega)) with h | h
          · omega
          · exact h
        have hns : n ≤ s := by
          have := hmin (s + 1) hs1
          omega
        apply ih s hrest hle _ htop'
        intro k hk1 hk2
        rcases List.mem_cons.mp (hchain k hk1 hk2) with h | h
        · omega
        · exact h

/-- One notification that returns no error moves the stored version of its document as
the gate says. -/
theorem didChange_version_gate {Ev : Type}
    (FileChanges : List Ev → Document → Except FsError (List ChangeEvent))
    (params : DidChangeTextDocumentParams Ev) (st : Store) (d : Document)
    (hdoc : st params.TextDocument.URI = some d)
    (hok : (didChange FileChanges params st).err = none) :
    ∃ d', (didChange FileChanges params st).fs params.TextDocument.URI = some d' ∧
      d'.version.val = gateStep d.version.val params.TextDocument.Version.val := by
  unfold gateStep
  by_cases hnext : params.TextDocument.Version.val = d.version.val + 1
  · cases hconv : FileChanges params.ContentChanges d with
    | error e =>
      rw [didChange_gate_open FileChanges params st d hdoc hnext, hconv] at hok
      cases hok
    | ok changes =>
      have hr : didChange FileChanges params st =
          ⟨(st.Change params.TextDocument changes).2,
           (st.Change params.TextDocument changes).1,
           [.GetFile params.TextDocument, .FileChanges params.ContentChanges,
            .Change params.TextDocument changes]⟩ := by
        rw [didChange_gate_open FileChanges params st d hdoc hnext, hconv]
      rw [hr] at hok ⊢
      cases happ : applyChanges d.text changes with
      | error e =>
        rw [Store.Change_error st _ changes d e hdoc happ] at hok
        cases hok
      | ok t =>
        rw [Store.Change_ok st _ changes d t hdoc happ]
        exact ⟨{ text := t, version := params.TextDocument.Version }, by simp, by simp [hnext]⟩
  · rw [(didChange_gate_closed FileChanges params st d hdoc hnext).2]
    exact ⟨d, hdoc, by simp [hnext]⟩

/-- The stored version after a sequence of notifications for one document, none of which
returns an error, is what the gate computes from the incoming versions. -/
theorem didChangeAll_version_gate {Ev : Type}
    (FileChanges : List Ev → Document → Except FsError (List ChangeEvent))
    (u : String) (calls : List (DidChangeTextDocumentParams Ev)) (st : Store) (d : Document)
    (hdoc : st u = some d)
    (huri : ∀ p ∈ calls, p.TextDocument.URI = u)
    (hok : ∀ e ∈ didChangeErrors FileChanges st calls, e = none) :
    (didChangeAll FileChanges st calls).versionOf u =
      some (gateFold d.version.val (incomingVersions calls)) := by
  induction calls generalizing st d with
  | nil => simp [didChangeAll, Store.versionOf, hdoc, incomingVersions, gateFold]
  | cons p ps ih =>
    have hp : p.TextDocument.URI = u := huri p (List.mem_cons_self _ _)
    simp only [didChangeErrors, List.mem_cons, forall_eq_or_imp] at hok
    obtain ⟨d', hd', hver⟩ := didChange_version_gate FileChanges p st d (hp ▸ hdoc) hok.1
    rw [hp] at hd'
    have := ih (didChange FileChanges p st).fs d' hd'
      (fun q hq => huri q (List.mem_cons_of_mem _ hq)) hok.2
    simp only [didChangeAll, incomingVersions, List.map_cons, gateFold]
    rw [this, hver]
    rfl

/-- C6 as amended (chain-final version): for notifications for one document stored at
version `s`, none of which returns an error, and `m` the top of the unbroken
chain `s+1, ..., m` among the incoming versions, the final stored version lies between
`s` and `m` in every processing order, and is `m` when the notifications are processed in
nondecreasing order of version. -/
theorem chain_final_version {Ev : Type}
    (FileChanges : List Ev → Document → Except FsError (List ChangeEvent))
    (u : String) (calls : List (DidChangeTextDocumentParams Ev)) (st : Store) (d : Document)
    (m : Int)
    (hdoc : st u = some d)
    (huri : ∀ p ∈ calls, p.TextDocument.URI = u)
    (hok : ∀ e ∈ didChangeErrors FileChanges st calls, e = none)
    (hle : d.version.val ≤ m)
    (hchain : ∀ k, d.version.val < k → k ≤ m → k ∈ incomingVersions calls)
    (htop : m + 1 ∉ incomingVersions calls) :
    (∃ v, (didChangeAll FileChanges st calls).versionOf u = some v ∧
      d.version.val ≤ v ∧ v ≤ m) ∧
    ((incomingVersions calls).Pairwise (fun a b => a ≤ b) →
      (didChangeAll FileChanges st calls).versionOf u = some m) := by
  rw [didChangeAll_version_gate FileChanges u calls st d hdoc huri hok]
  obtain ⟨h1, h2⟩ := gateFold_bounds (incomingVersions calls) d.version.val
  refine ⟨⟨_, rfl, h1, ?_⟩, ?_⟩
  · by_contra hgt
    exact htop (h2 (m + 1) (by omega) (by omega))
  · intro hsorted
    rw [gateFold_sorted (incomingVersions calls) d.version.val m hsorted hle hchain htop]

/-! ## Theorems: `ParseBlockFromTokens` -/

/-- The keys of the map that `blockTypes` builds. -/
theorem blockTypes_keys {S : Type} (p : parser S) :
    p.blockTypes.map Prod.fst = ["provider", "resource", "data"] := rfl

/-- A keyword outside the three registered ones is not found in the map. -/
theorem blockTypes_lookup_none {S : Type} (p : parser S) (k : String)
    (hk : k ∉ ["provider", "resource", "data"]) : p.blockTypes.lookup k = none := by
  simp only [List.mem_cons, List.mem_singleton, List.not_mem_nil, or_false, not_or] at hk
  obtain ⟨h1, h2, h3⟩ := hk
  have b1 : (k == "provider") = false := beq_eq_false_iff_ne.mpr h1
  have b2 : (k == "resource") = false := beq_eq_false_iff_ne.mpr h2
  have b3 : (k == "data") = false := beq_eq_false_iff_ne.mpr h3
  simp only [parser.blockTypes, List.lookup, b1, b2, b3]

/-- A keyword found in the map is one of the three registered ones. -/
theorem blockTypes_lookup_some {S : Type} (p : parser S) (k : String)
    (f : configBlockFactory S) (hf : p.blockTypes.lookup k = some f) :
    k ∈ ["provider", "resource", "data"] := by
  by_contra hk
  rw [blockTypes_lookup_none p k hk] at hf
  cases hf

/-- When the HCL parser yields a block whose type `k` is not a registered keyword,
`ParseBlockFromTokens` returns no block and an `unknownBlockTypeErr` carrying `k`, and
calls no factory; and whenever it returns a block, the parsed block type is a registered
keyword. -/
theorem unknown_type_rejected {S Tok B ε LS MC D : Type}
    (m : FactoryMethods S Tok B ε LS MC) (Error : ε → String)
    (hclParse : List Tok → Option Block × D) (p : parser S) (tokens : List Tok) :
    (∀ k : String, tokens ≠ [] → (hclParse tokens).1 = some { Type_ := k } →
      k ∉ ["provider", "resource", "data"] →
      (p.ParseBlockFromTokens m Error hclParse tokens).result =
        .returned none (some (.unknownBlockTypeErr k)) ∧
      ∀ c ∈ (p.ParseBlockFromTokens m Error hclParse tokens).calls, c.isNew = false) ∧
    (∀ (b : B) (e : Option (ParseError ε)),
      (p.ParseBlockFromTokens m Error hclParse tokens).result = .returned (some b) e →
      ∃ block, (hclParse tokens).1 = some block ∧
        block.Type_ ∈ ["provider", "resource", "data"]) := by
  constructor
  · intro k hne hparse hk
    have hlen : ¬ tokens.length = 0 := fun h => hne (List.length_eq_zero.mp h)
    have hr : p.ParseBlockFromTokens m Error hclParse tokens =
        ⟨.returned none (some (.unknownBlockTypeErr k)),
         [.hclParseBlockFromTokens tokens, .Printf "Parsed block type: %q" k]⟩ := by
      simp only [parser.ParseBlockFromTokens, hlen, if_false, hparse,
        blockTypes_lookup_none p k hk]
    rw [hr]
    refine ⟨rfl, ?_⟩
    intro c hc
    simp only [List.mem_cons, List.mem_singleton, List.not_mem_nil, or_false] at hc
    rcases hc with rfl | rfl <;> rfl
  · intro b e hres
    unfold parser.ParseBlockFromTokens at hres
    split at hres
    · cases hres
    · cases hparse : (hclParse tokens).1 with
      | none =>
        rw [hparse] at hres
        cases hres
      | some block =>
        refine ⟨block, rfl, ?_⟩
        rw [hparse] at hres
        dsimp only at hres
        cases hf : p.blockTypes.lookup block.Type_ with
        | none =>
          rw [hf] at hres
          cases hres
        | some f => exact blockTypes_lookup_some p _ f hf

/-- C7 (unknown type rejection) fails on the code where the HCL parser yields no block:
on non-empty tokens for which `hclsyntax.ParseBlockFromTokens` returns a `nil` block,
whatever their leading keyword, `ParseBlockFromTokens` reads `block.Type` on `nil` and
panics right after the call of the HCL parser; it returns no `unknownBlockTypeErr`. -/
theorem unknown_type_nil_block {S Tok B ε LS MC D : Type}
    (m : FactoryMethods S Tok B ε LS MC) (Error : ε → String)
    (hclParse : List Tok → Option Block × D) (p : parser S) (tokens : List Tok)
    (hne : tokens ≠ [])
    (hnil : (hclParse tokens).1 = none) :
    (p.ParseBlockFromTokens m Error hclParse tokens).result = .panicked ∧
    (∀ (b : Option B) (k : String),
      (p.ParseBlockFromTokens m Error hclParse tokens).result ≠
        .returned b (some (.unknownBlockTypeErr k))) ∧
    (p.ParseBlockFromTokens m Error hclParse tokens).calls =
      [.hclParseBlockFromTokens tokens] := by
  have hlen : ¬ tokens.length = 0 := fun h => hne (List.length_eq_zero.mp h)
  have hr : p.ParseBlockFromTokens m Error hclParse tokens =
      ⟨.panicked, [.hclParseBlockFromTokens tokens]⟩ := by
    simp only [parser.ParseBlockFromTokens, hlen, if_false, hnil]
  rw [hr]
  refine ⟨rfl, ?_, rfl⟩
  intro b k h
  cases h

/-- C8 (factory dispatch and error wrapping): on non-empty tokens whose parsed block
type `k` is registered with factory `f`, `ParseBlockFromTokens` calls `New` of `f` once,
on the tokens it was given; when `New` returns no error the result is the block of `New`
and no error; when `New` returns the error `e` the result is no block and the error with
message `k ++ ": " ++ Error e` that unwraps to `e`. -/
theorem factory_dispatch {S Tok B ε LS MC D : Type}
    (m : FactoryMethods S Tok B ε LS MC) (Error : ε → String)
    (hclParse : List Tok → Option Block × D) (p : parser S) (tokens : List Tok)
    (k : String) (f : configBlockFactory S)
    (hne : tokens ≠ [])
    (hparse : (hclParse tokens).1 = some { Type_ := k })
    (hf : p.blockTypes.lookup k = some f) :
    (p.ParseBlockFromTokens m Error hclParse tokens).calls =
      [.hclParseBlockFromTokens tokens, .Printf "Parsed block type: %q" k, .New f tokens] ∧
    (∀ cfgBlock, m.New f tokens = (cfgBlock, none) →
      (p.ParseBlockFromTokens m Error hclParse tokens).result = .returned cfgBlock none) ∧
    (∀ cfgBlock e, m.New f tokens = (cfgBlock, some e) →
      (p.ParseBlockFromTokens m Error hclParse tokens).result =
        .returned none (some (.wrapError (k ++ ": " ++ Error e) e)) ∧
      (ParseError.wrapError (k ++ ": " ++ Error e) e).Unwrap = some e) := by
  have hlen : ¬ tokens.length = 0 := fun h => hne (List.length_eq_zero.mp h)
  refine ⟨?_, ?_, ?_⟩
  · simp only [parser.ParseBlockFromTokens, hlen, if_false, hparse, hf]
    split <;> rfl
  · intro cfgBlock hnew
    simp only [parser.ParseBlockFromTokens, hlen, if_false, hparse, hf, hnew]
  · intro cfgBlock e hnew
    refine ⟨?_, rfl⟩
    simp only [parser.ParseBlockFromTokens, hlen, if_false, hparse, hf, hnew]

/-- C9 (empty input): on the empty token sequence `ParseBlockFromTokens` returns no
block and `EmptyConfigErr` and makes no call; on a non-empty token sequence it never
returns `EmptyConfigErr`. -/
theorem empty_input {S Tok B ε LS MC D : Type}
    (m : FactoryMethods S Tok B ε LS MC) (Error : ε → String)
    (hclParse : List Tok → Option Block × D) (p : parser S) :
    (p.ParseBlockFromTokens m Error hclParse []).result =
      .returned none (some .EmptyConfigErr) ∧
    (p.ParseBlockFromTokens m Error hclParse []).calls = [] ∧
    (∀ (tokens : List Tok) (b : Option B), tokens ≠ [] →
      (p.ParseBlockFromTokens m Error hclParse tokens).result ≠
        .returned b (some .EmptyConfigErr)) := by
  refine ⟨rfl, rfl, ?_⟩
  intro tokens b hne hres
  have hlen : ¬ tokens.length = 0 := fun h => hne (List.length_eq_zero.mp h)
  simp only [parser.ParseBlockFromTokens, hlen, if_false] at hres
  split at hres
  · cases hres
  · split at hres
    · cases hres
    · split at hres <;> cases hres

/-! ## Theorems: `BlockTypeCandidates` -/

/-- The labels the loop appends are the visited keywords that start with the prefix, in
the order of the visit. -/
theorem candidatesLoop_labels {S Tok B ε LS MC : Type} (m : FactoryMethods S Tok B ε LS MC)
    (pre : String) (pos : Pos) (entries : List (String × configBlockFactory S))
    (acc : List (completableBlockType LS MC)) :
    (candidatesLoop m pre pos entries acc).map completableBlockType.Label =
      acc.map completableBlockType.Label ++
        (entries.map Prod.fst).filter (fun k => HasPrefix k pre) := by
  induction entries generalizing acc with
  | nil => simp [candidatesLoop]
  | cons entry rest ih =>
    obtain ⟨name, t⟩ := entry
    by_cases h : HasPrefix name pre = true
    · simp [candidatesLoop, h, ih, completableBlockType.Label]
    · simp only [Bool.not_eq_true] at h
      simp [candidatesLoop, h, ih]

/-- A visit of the map of `blockTypes` in an order made of registered keywords visits
exactly these keys, in this order. -/
theorem rangeMap_blockTypes_keys {S : Type} (p : parser S) (order : List String)
    (horder : ∀ k ∈ order, k ∈ ["provider", "resource", "data"]) :
    (rangeMap order p.blockTypes).map Prod.fst = order := by
  induction order with
  | nil => rfl
  | cons k ks ih =>
    have hk := horder k (List.mem_cons_self _ _)
    have hks := ih (fun x hx => horder x (List.mem_cons_of_mem _ hx))
    have hlook : ∃ f, p.blockTypes.lookup k = some f := by
      simp only [List.mem_cons, List.mem_singleton, List.not_mem_nil, or_false] at hk
      rcases hk with rfl | rfl | rfl <;> exact ⟨_, rfl⟩
    obtain ⟨f, hf⟩ := hlook
    unfold rangeMap at hks ⊢
    rw [List.filterMap_cons]
    simp only [hf, Option.map_some']
    rw [List.map_cons, hks]

/-- The labels of the candidates are the visited keywords that start with the word
before the cursor. -/
theorem BlockTypeCandidates_labels {S Tok B ε LS MC : Type}
    (m : FactoryMethods S Tok B ε LS MC) (wordBeforePos : List Tok → Pos → String)
    (order : List String) (p : parser S) (tokens : List Tok) (pos : Pos)
    (horder : order.Perm ["provider", "resource", "data"]) :
    (p.BlockTypeCandidates m wordBeforePos order tokens pos).map completableBlockType.Label =
      order.filter (fun k => HasPrefix k (wordBeforePos tokens pos)) := by
  simp only [parser.BlockTypeCandidates, candidatesLoop_labels, List.map_nil, List.nil_append]
  rw [rangeMap_blockTypes_keys p order (fun k hk => horder.subset hk)]

/-- C10 (completion filter): whatever the order in which the map of block types is
visited, each registered keyword that starts with the word before the cursor is the
label of exactly one candidate and nothing else is a label; the word `resou` gives the
single candidate `resource`, the empty word gives the three keywords, and the word
`Resou`, which differs in case, gives none. -/
theorem completion_filter {S Tok B ε LS MC : Type}
    (m : FactoryMethods S Tok B ε LS MC) (wordBeforePos : List Tok → Pos → String)
    (order : List String) (p : parser S) (tokens : List Tok) (pos : Pos)
    (horder : order.Perm ["provider", "resource", "data"]) :
    (∀ k : String,
      ((p.BlockTypeCandidates m wordBeforePos order tokens pos).map
        completableBlockType.Label).count k =
      if k ∈ ["provider", "resource", "data"] ∧ HasPrefix k (wordBeforePos tokens pos) = true
      then 1 else 0) ∧
    (wordBeforePos tokens pos = "resou" →
      (p.BlockTypeCandidates m wordBeforePos order tokens pos).map
        completableBlockType.Label = ["resource"]) ∧
    (wordBeforePos tokens pos = "" →
      ((p.BlockTypeCandidates m wordBeforePos order tokens pos).map
        completableBlockType.Label).Perm ["provider", "resource", "data"]) ∧
    (wordBeforePos tokens pos = "Resou" →
      (p.BlockTypeCandidates m wordBeforePos order tokens pos).map
        completableBlockType.Label = []) := by
  rw [BlockTypeCandidates_labels m wordBeforePos order p tokens pos horder]
  have hfilter := horder.filter (fun k => HasPrefix k (wordBeforePos tokens pos))
  refine ⟨?_, ?_, ?_, ?_⟩
  · intro k
    rw [hfilter.count_eq]
    by_cases hp : HasPrefix k (wordBeforePos tokens pos) = true
    · rw [List.count_filter (by simpa using hp)]
      by_cases hk : k ∈ ["provider", "resource", "data"]
      · rw [if_pos ⟨hk, hp⟩]
        exact List.count_eq_one_of_mem (by decide) hk
      · rw [if_neg (fun h => hk h.1)]
        exact List.count_eq_zero_of_not_mem hk
    · rw [if_neg (fun h => hp h.2)]
      apply List.count_eq_zero_of_not_mem
      intro hmem
      exact hp (by simpa using (List.mem_filter.mp hmem).2)
  · intro hpre
    have hthree : List.filter (fun k => HasPrefix k "resou") ["provider", "resource", "data"] =
        ["resource"] := by decide
    rw [hpre] at hfilter ⊢
    rw [hthree] at hfilter
    exact List.perm_singleton.mp hfilter
  · intro hpre
    have hthree : List.filter (fun k => HasPrefix k "") ["provider", "resource", "data"] =
        ["provider", "resource", "data"] := by decide
    rw [hpre] at hfilter ⊢
    rw [hthree] at hfilter
    exact hfilter
  · intro hpre
    have hthree : List.filter (fun k => HasPrefix k "Resou") ["provider", "resource", "data"] =
        [] := by decide
    rw [hpre] at hfilter ⊢
    rw [hthree] at hfilter
    exact List.perm_nil.mp hfilter

/-! ## Theorems: `ParserSupportsTerraform` and `FindCompatibleParser` -/

/-- The constraint of the parser, as the package `go-version` reads it. -/
theorem parseConstraint_constraint :
    parseConstraint parserVersionConstraint = some constraint_0_12_0 :=
  rfl

/-- What `ParserSupportsTerraform` returns, with the package `go-version`, for a text
that parses as a version: `nil` for a version without pre-release that does not compare
below 0.12.0, and otherwise an `UnsupportedTerraformVersion`. -/
theorem ParserSupportsTerraform_goVersion (v : String) (ver : GoVersion)
    (hparse : parseVersion v = some ver) :
    ParserSupportsTerraform goVersionLibrary v =
      if checkConstraint constraint_0_12_0 ver = true then none
      else some (.UnsupportedTerraformVersion "parser" v constraint_0_12_0) := by
  simp only [ParserSupportsTerraform, goVersionLibrary, hparse, parseConstraint_constraint]
  by_cases h : checkConstraint constraint_0_12_0 ver = true
  · simp [h]
  · simp [h]

/-- For a text that parses as a version without pre-release, `ParserSupportsTerraform`
returns `nil` exactly when the version does not compare below 0.12.0. -/
theorem release_version_acceptance (v : String) (ver : GoVersion)
    (hparse : parseVersion v = some ver) (hpre : ver.pre = "") :
    ParserSupportsTerraform goVersionLibrary v = none ↔
      compareSegments ver.segments [0, 12, 0] ≠ .lt := by
  rw [ParserSupportsTerraform_goVersion v ver hparse]
  by_cases h : compareSegments ver.segments [0, 12, 0] = .lt
  · have hcheck : checkConstraint constraint_0_12_0 ver = false := by
      simp [checkConstraint, constraint_0_12_0, h]
    simp [hcheck, h]
  · have hcheck : checkConstraint constraint_0_12_0 ver = true := by
      simp [checkConstraint, constraint_0_12_0, hpre, h]
    simp [hcheck, h]

/-- For a text that parses as a version with a pre-release, `ParserSupportsTerraform`
returns an `UnsupportedTerraformVersion`, whatever the segments of the version. -/
theorem prerelease_version_rejected (v : String) (ver : GoVersion)
    (hparse : parseVersion v = some ver) (hpre : ver.pre ≠ "") :
    ParserSupportsTerraform goVersionLibrary v =
      some (.UnsupportedTerraformVersion "parser" v constraint_0_12_0) := by
  rw [ParserSupportsTerraform_goVersion v ver hparse]
  have hcheck : checkConstraint constraint_0_12_0 ver = false := by
    simp [checkConstraint, hpre]
  rw [hcheck]
  rfl

/-- C12 (version acceptance) fails on the code at the version `1.0.0-rc1`: the text
parses as the version 1.0.0 with the pre-release `rc1`, which compares above 0.12.0, and
`ParserSupportsTerraform` does not return `nil` but an `UnsupportedTerraformVersion`,
because the check of a constraint without pre-release matches no pre-release version. -/
theorem version_acceptance_fails_on_prerelease :
    parseVersion "1.0.0-rc1" = some { segments := [1, 0, 0], pre := "rc1", metadata := "" } ∧
    compareSegments [1, 0, 0] constraint_0_12_0.lower.segments = .gt ∧
    ParserSupportsTerraform goVersionLibrary "1.0.0-rc1" =
      some (.UnsupportedTerraformVersion "parser" "1.0.0-rc1" constraint_0_12_0) ∧
    ParserSupportsTerraform goVersionLibrary "1.0.0-rc1" ≠ none ∧
    ParserSupportsTerraform goVersionLibrary "1.0.0" = none := by
  refine ⟨rfl, rfl, rfl, ?_, rfl⟩
  decide

/-- C13 (unsupported-version payload): when the version text parses, the constraint
`>= 0.12.0` parses to `c` and the check of the version against `c` fails,
`ParserSupportsTerraform` returns an `UnsupportedTerraformVersion` with component
`parser`, the version text as it was given, and the constraint `c`. -/
theorem unsupported_payload {V C E : Type} (lib : VersionLibrary V C E) (v : String)
    (tfVersion : V) (c : C)
    (hv : lib.NewVersion v = .ok tfVersion)
    (hc : lib.NewConstraint ">= 0.12.0" = .ok c)
    (hcheck : lib.Check c tfVersion = false) :
    ParserSupportsTerraform lib v = some (.UnsupportedTerraformVersion "parser" v c) := by
  have hconst : parserVersionConstraint = ">= 0.12.0" := rfl
  simp only [ParserSupportsTerraform, hv, hconst, hc, hcheck, Bool.not_false, if_true]

/-- C14 (invalid version): when the version text does not parse, with error `e` of the
version package, `ParserSupportsTerraform` returns `e`, which is neither `nil` nor an
`UnsupportedTerraformVersion`, and `FindCompatibleParser` returns no parser and `e`,
allocating nothing. -/
theorem invalid_version {S V C E : Type} (lib : VersionLibrary V C E) (v : String) (e : E)
    (heap : ParserHeap S)
    (hv : lib.NewVersion v = .error e) :
    ParserSupportsTerraform lib v = some (.library e) ∧
    ParserSupportsTerraform lib v ≠ none ∧
    (∀ (component version : String) (c : C),
      ParserSupportsTerraform lib v ≠ some (.UnsupportedTerraformVersion component version c)) ∧
    FindCompatibleParser lib v heap = ((none, some (.library e)), heap) := by
  have h : ParserSupportsTerraform lib v = some (.library e) := by
    simp only [ParserSupportsTerraform, hv]
  refine ⟨h, ?_, ?_, ?_⟩
  · rw [h]
    exact Option.some_ne_none _
  · intro component version c hne
    rw [h] at hne
    cases hne
  · simp only [FindCompatibleParser, h]

/-- The object allocated by `newParser` sits behind the objects allocated before, which
stay as they are. -/
theorem ParserHeap.deref_newParser {S : Type} (heap : ParserHeap S) (ref : Nat) :
    heap.newParser.2.deref ref =
      if ref < List.length heap then heap.deref ref
      else if ref = List.length heap then some { logger := discardLog, schemaReader := none }
      else none := by
  unfold ParserHeap.newParser ParserHeap.deref discardLog
  simp only [List.append_eq, List.get?_eq_getElem?]
  by_cases h1 : ref < List.length heap
  · rw [if_pos h1, List.getElem?_append_left h1]
  · rw [if_neg h1, List.getElem?_append_right (by omega)]
    by_cases h2 : ref = List.length heap
    · simp [h2]
    · rw [if_neg h2]
      have : ref - List.length heap = (ref - List.length heap - 1) + 1 := by omega
      rw [this]
      rfl

/-- A change of the logger through one `*parser` leaves the object behind any other
`*parser` as it is. -/
theorem ParserHeap.deref_SetLogger_ne {S : Type} (heap : ParserHeap S) (ref other : Nat)
    (logger : Logger) (hne : ref ≠ other) :
    (heap.SetLogger ref logger).deref other = heap.deref other := by
  unfold ParserHeap.SetLogger ParserHeap.deref
  simp only [List.get?_eq_getElem?]
  exact List.getElem?_modify_ne _ _ hne

/-- A change of the schema reader through one `*parser` leaves the object behind any
other `*parser` as it is. -/
theorem ParserHeap.deref_SetSchemaReader_ne {S : Type} (heap : ParserHeap S) (ref other : Nat)
    (sr : Option S) (hne : ref ≠ other) :
    (heap.SetSchemaReader ref sr).deref other = heap.deref other := by
  unfold ParserHeap.SetSchemaReader ParserHeap.deref
  simp only [List.get?_eq_getElem?]
  exact List.getElem?_modify_ne _ _ hne

/-- What `FindCompatibleParser` returns when `ParserSupportsTerraform` returns `nil`. -/
theorem FindCompatibleParser_ok {S V C E : Type} (lib : VersionLibrary V C E) (v : String)
    (heap : ParserHeap S) (h : ParserSupportsTerraform lib v = none) :
    FindCompatibleParser lib v heap = ((some (List.length heap), none), heap.newParser.2) := by
  simp only [FindCompatibleParser, h]
  rfl

/-- What `FindCompatibleParser` returns when `ParserSupportsTerraform` returns an
error. -/
theorem FindCompatibleParser_error {S V C E : Type} (lib : VersionLibrary V C E) (v : String)
    (heap : ParserHeap S) (e : SupportError C E) (h : ParserSupportsTerraform lib v = some e) :
    FindCompatibleParser lib v heap = ((none, some e), heap) := by
  simp only [FindCompatibleParser, h]

/-- The number of objects after `newParser` has allocated one. -/
theorem ParserHeap.length_newParser {S : Type} (heap : ParserHeap S) :
    List.length heap.newParser.2 = List.length heap + 1 := by
  unfold ParserHeap.newParser
  simp

/-- C15 (acquire agrees with supports): `FindCompatibleParser` returns a parser and no
error exactly when `ParserSupportsTerraform` returns `nil`, and otherwise no parser and
the error of `ParserSupportsTerraform`.  The parser of a successful call is a new
object, with the discarding logger and no schema reader, and the objects allocated
before are as they were; the parsers of two successful calls are different objects, and
setting the logger or the schema reader of one leaves the other as it is. -/
theorem acquire_agrees {S V C E : Type} (lib : VersionLibrary V C E) (v : String)
    (heap : ParserHeap S) :
    ((∃ ref, (FindCompatibleParser lib v heap).1 = (some ref, none)) ↔
      ParserSupportsTerraform lib v = none) ∧
    (∀ e, ParserSupportsTerraform lib v = some e →
      FindCompatibleParser lib v heap = ((none, some e), heap)) ∧
    (ParserSupportsTerraform lib v = none →
      (FindCompatibleParser lib v heap).1 = (some (List.length heap), none) ∧
      heap.deref (List.length heap) = none ∧
      (FindCompatibleParser lib v heap).2.deref (List.length heap) =
        some { logger := discardLog, schemaReader := none } ∧
      (∀ ref, ref < List.length heap →
        (FindCompatibleParser lib v heap).2.deref ref = heap.deref ref) ∧
      (∀ w : String, ParserSupportsTerraform lib w = none →
        (FindCompatibleParser lib w (FindCompatibleParser lib v heap).2).1 =
          (some (List.length heap + 1), none) ∧
        (∀ (logger : Logger) (sr : Option S),
          (((FindCompatibleParser lib w (FindCompatibleParser lib v heap).2).2.SetLogger
            (List.length heap) logger).SetSchemaReader (List.length heap) sr).deref
            (List.length heap + 1) = some { logger := discardLog, schemaReader := none } ∧
          (((FindCompatibleParser lib w (FindCompatibleParser lib v heap).2).2.SetLogger
            (List.length heap + 1) logger).SetSchemaReader (List.length heap + 1) sr).deref
            (List.length heap) = some { logger := discardLog, schemaReader := none }))) := by
  refine ⟨?_, ?_, ?_⟩
  · constructor
    · rintro ⟨ref, href⟩
      cases h : ParserSupportsTerraform lib v with
      | none => rfl
      | some e =>
        rw [FindCompatibleParser_error lib v heap e h] at href
        cases href
    · intro h
      exact ⟨List.length heap, by rw [FindCompatibleParser_ok lib v heap h]⟩
  · intro e h
    exact FindCompatibleParser_error lib v heap e h
  · intro h
    rw [FindCompatibleParser_ok lib v heap h]
    refine ⟨rfl, ?_, ?_, ?_, ?_⟩
    · unfold ParserHeap.deref
      simp
    · rw [ParserHeap.deref_newParser]
      simp
    · intro ref href
      rw [ParserHeap.deref_newParser, if_pos href]
    · intro w hw
      rw [FindCompatibleParser_ok lib w _ hw, ParserHeap.length_newParser]
      refine ⟨rfl, ?_⟩
      intro logger sr
      constructor
      · rw [ParserHeap.deref_SetSchemaReader_ne _ _ _ _ (by omega),
          ParserHeap.deref_SetLogger_ne _ _ _ _ (by omega),
          ParserHeap.deref_newParser, ParserHeap.length_newParser]
        simp
      · rw [ParserHeap.deref_SetSchemaReader_ne _ _ _ _ (by omega),
          ParserHeap.deref_SetLogger_ne _ _ _ _ (by omega),
          ParserHeap.deref_newParser, ParserHeap.length_newParser, if_pos (by omega),
          ParserHeap.deref_newParser]
        simp

/-! ## Theorems: the candidates of `BlockTypeCandidates` -/

/-- Every candidate the loop returns was in the list before or was built from a visited
entry whose key starts with the prefix. -/
theorem candidatesLoop_mem {S Tok B ε LS MC : Type} (m : FactoryMethods S Tok B ε LS MC)
    (pre : String) (pos : Pos) (entries : List (String × configBlockFactory S))
    (acc : List (completableBlockType LS MC)) (c : completableBlockType LS MC)
    (hc : c ∈ candidatesLoop m pre pos entries acc) :
    c ∈ acc ∨ ∃ name t, (name, t) ∈ entries ∧ HasPrefix name pre = true ∧
      c = { TypeName := name, LabelSchema := m.LabelSchema t,
            documentation := m.Documentation t, pfx := pre, pos := pos } := by
  induction entries generalizing acc with
  | nil => exact Or.inl hc
  | cons entry rest ih =>
    obtain ⟨name, t⟩ := entry
    by_cases h : HasPrefix name pre = true
    · simp only [candidatesLoop, h, Bool.not_true, Bool.false_eq_true, if_false] at hc
      rcases ih _ hc with hacc | ⟨n, f, hmem, hpre, heq⟩
      · rcases List.mem_append.mp hacc with h1 | h1
        · exact Or.inl h1
        · rw [List.mem_singleton] at h1
          exact Or.inr ⟨name, t, List.mem_cons_self _ _, h, h1⟩
      · exact Or.inr ⟨n, f, List.mem_cons_of_mem _ hmem, hpre, heq⟩
    · simp only [Bool.not_eq_true] at h
      simp only [candidatesLoop, h, Bool.not_false, if_true] at hc
      rcases ih _ hc with hacc | ⟨n, f, hmem, hpre, heq⟩
      · exact Or.inl hacc
      · exact Or.inr ⟨n, f, List.mem_cons_of_mem _ hmem, hpre, heq⟩

/-- Every entry a `range` loop visits is an entry of the map. -/
theorem rangeMap_mem {V : Type} (order : List String) (m : List (String × V)) (k : String)
    (v : V) (h : (k, v) ∈ rangeMap order m) : m.lookup k = some v := by
  unfold rangeMap at h
  rw [List.mem_filterMap] at h
  obtain ⟨k', -, hk'⟩ := h
  cases hl : m.lookup k' with
  | none => simp [hl] at hk'
  | some v' =>
    simp only [hl, Option.map_some', Option.some.injEq, Prod.mk.injEq] at hk'
    obtain ⟨rfl, rfl⟩ := hk'
    exact hl

/-- Every candidate of `BlockTypeCandidates` was built from a registered keyword that
starts with the word before the cursor and from the factory registered under it. -/
theorem BlockTypeCandidates_mem {S Tok B ε LS MC : Type}
    (m : FactoryMethods S Tok B ε LS MC) (wordBeforePos : List Tok → Pos → String)
    (order : List String) (p : parser S) (tokens : List Tok) (pos : Pos)
    (c : completableBlockType LS MC)
    (hc : c ∈ p.BlockTypeCandidates m wordBeforePos order tokens pos) :
    ∃ name t, p.blockTypes.lookup name = some t ∧
      HasPrefix name (wordBeforePos tokens pos) = true ∧
      c = { TypeName := name, LabelSchema := m.LabelSchema t,
            documentation := m.Documentation t, pfx := wordBeforePos tokens pos,
            pos := pos } := by
  unfold parser.BlockTypeCandidates at hc
  rcases candidatesLoop_mem m _ pos _ [] c hc with h | ⟨name, t, hmem, hpre, heq⟩
  · cases h
  · exact ⟨name, t, rangeMap_mem order _ name t hmem, hpre, heq⟩

/-- The length in bytes of a text of one-byte characters is its number of characters. -/
theorem utf8ByteSize_go_of_ascii (l : List Char) (h : ∀ c ∈ l, c.utf8Size = 1) :
    String.utf8ByteSize.go l = l.length := by
  induction l with
  | nil => rfl
  | cons c cs ih =>
    simp only [String.utf8ByteSize.go, List.length_cons]
    rw [ih (fun x hx => h x (List.mem_cons_of_mem _ hx)), h c (List.mem_cons_self _ _)]

/-- A word that starts a registered keyword is at most 8 bytes long. -/
theorem len_le_of_HasPrefix (k pre : String) (hk : k ∈ ["provider", "resource", "data"])
    (hpre : HasPrefix k pre = true) : 0 ≤ len pre ∧ len pre ≤ 8 := by
  unfold HasPrefix at hpre
  rw [List.isPrefixOf_iff_prefix] at hpre
  have hascii : ∀ c ∈ k.data, c.utf8Size = 1 := by
    simp only [List.mem_cons, List.mem_singleton, List.not_mem_nil, or_false] at hk
    rcases hk with rfl | rfl | rfl <;> decide
  have hlen : k.data.length ≤ 8 := by
    simp only [List.mem_cons, List.mem_singleton, List.not_mem_nil, or_false] at hk
    rcases hk with rfl | rfl | rfl <;> decide
  have hsize : pre.utf8ByteSize = pre.data.length := by
    cases pre with
    | mk data => exact utf8ByteSize_go_of_ascii data (fun c hc => hascii c (hpre.mem hc))
  have := hpre.length_le
  unfold len
  omega

/-- On integers in the range of Go's `int`, the wrap-around changes nothing. -/
theorem wrapInt64_of_range (x : Int) (h1 : -(2 ^ 63) ≤ x) (h2 : x < 2 ^ 63) :
    wrapInt64 x = x := by
  unfold wrapInt64
  omega

/-- The length of a text in bytes is not negative. -/
theorem len_nonneg (s : String) : 0 ≤ len s := by
  unfold len
  omega

/-- C11 (prefix-range invariant): for every candidate of `BlockTypeCandidates` at the
position `pos`, with `p` the word before the cursor, the label starts with `p`, the end
of the prefix range is `pos`, its start is on the line of `pos`, and the column of its
start is Go's `pos.Column - len(p)`, which is this difference as an integer for every
column from `-2^63 + 8` on; for `resou` at column 6 the columns are 1 and 6. -/
theorem prefix_range_invariant {S Tok B ε LS MC : Type}
    (m : FactoryMethods S Tok B ε LS MC) (wordBeforePos : List Tok → Pos → String)
    (order : List String) (p : parser S) (tokens : List Tok) (pos : Pos)
    (c : completableBlockType LS MC)
    (hc : c ∈ p.BlockTypeCandidates m wordBeforePos order tokens pos) :
    HasPrefix c.Label (wordBeforePos tokens pos) = true ∧
    c.PrefixRange.End = pos ∧
    c.PrefixRange.Start.Line = pos.Line ∧
    c.PrefixRange.Start.Column =
      GoInt.ofInt (pos.Column.val - len (wordBeforePos tokens pos)) ∧
    (-(2 ^ 63) + 8 ≤ pos.Column.val →
      c.PrefixRange.Start.Column.val = pos.Column.val - len (wordBeforePos tokens pos)) ∧
    (wordBeforePos tokens pos = "resou" → pos.Column.val = 6 →
      c.PrefixRange.Start.Column.val = 1 ∧ c.PrefixRange.End.Column.val = 6) := by
  obtain ⟨name, t, hlook, hpre, rfl⟩ :=
    BlockTypeCandidates_mem m wordBeforePos order p tokens pos c hc
  have hbound := len_le_of_HasPrefix name _ (blockTypes_lookup_some p name t hlook) hpre
  have hcol := pos.Column.property
  have hmath : -(2 ^ 63) + 8 ≤ pos.Column.val →
      wrapInt64 (pos.Column.val - len (wordBeforePos tokens pos)) =
        pos.Column.val - len (wordBeforePos tokens pos) := by
    intro h
    exact wrapInt64_of_range _ (by omega) (by omega)
  refine ⟨hpre, rfl, rfl, rfl, hmath, ?_⟩
  intro hword h6
  have hlen : len (wordBeforePos tokens pos) = 5 := by
    rw [hword]
    rfl
  constructor
  · show wrapInt64 (pos.Column.val - len (wordBeforePos tokens pos)) = 1
    rw [hmath (by omega), hlen, h6]
    rfl
  · exact h6

/-- C16 (candidate contents): every candidate of `BlockTypeCandidates` has a registered
keyword as its label, the snippet that `snippetForBlock` makes from this keyword and the
label schema of the factory registered under it, the documentation of that factory, and
the empty detail. -/
theorem candidate_contents {S Tok B ε LS MC : Type}
    (m : FactoryMethods S Tok B ε LS MC) (wordBeforePos : List Tok → Pos → String)
    (snippetForBlock : String → LS → String)
    (order : List String) (p : parser S) (tokens : List Tok) (pos : Pos)
    (c : completableBlockType LS MC)
    (hc : c ∈ p.BlockTypeCandidates m wordBeforePos order tokens pos) :
    ∃ f, p.blockTypes.lookup c.Label = some f ∧
      c.Label ∈ ["provider", "resource", "data"] ∧
      c.Snippet snippetForBlock = snippetForBlock c.Label (m.LabelSchema f) ∧
      c.Documentation = m.Documentation f ∧
      c.Detail = "" := by
  obtain ⟨name, t, hlook, -, rfl⟩ :=
    BlockTypeCandidates_mem m wordBeforePos order p tokens pos c hc
  exact ⟨t, hlook, blockTypes_lookup_some p name t hlook, rfl, rfl, rfl⟩

/-! ## Theorems: the registry of block types -/

/-- C17 (registry contents): the map of `blockTypes` has exactly the three keys
`provider`, `resource` and `data`, bound to a provider, a resource and a data-source
factory, each with the logger and the schema reader of the parser; after `SetLogger` or
`SetSchemaReader` the factories carry the logger or schema reader that was set. -/
theorem registry_contents {S : Type} (p : parser S) :
    p.blockTypes.map Prod.fst = ["provider", "resource", "data"] ∧
    (p.blockTypes.map Prod.fst).Nodup ∧
    p.blockTypes.lookup "provider" = some (.providerBlockFactory p.logger p.schemaReader) ∧
    p.blockTypes.lookup "resource" = some (.resourceBlockFactory p.logger p.schemaReader) ∧
    p.blockTypes.lookup "data" = some (.datasourceBlockFactory p.logger p.schemaReader) ∧
    (∀ k, k ∉ ["provider", "resource", "data"] → p.blockTypes.lookup k = none) ∧
    (∀ logger : Logger, (p.SetLogger logger).blockTypes.map Prod.snd =
      [.providerBlockFactory logger p.schemaReader,
       .resourceBlockFactory logger p.schemaReader,
       .datasourceBlockFactory logger p.schemaReader]) ∧
    (∀ sr : Option S, (p.SetSchemaReader sr).blockTypes.map Prod.snd =
      [.providerBlockFactory p.logger sr,
       .resourceBlockFactory p.logger sr,
       .datasourceBlockFactory p.logger sr]) := by
  refine ⟨rfl, ?_, rfl, rfl, rfl, ?_, ?_, ?_⟩
  · rw [blockTypes_keys]
    decide
  · intro k hk
    exact blockTypes_lookup_none p k hk
  · intro logger
    rfl
  · intro sr
    rfl

/-! ## Theorems: the version gate under machine integers -/

/-- C19 (exact gate under machine integers): with `f.Version()+1` wrapping around, the
handler calls `FileChanges` exactly when the incoming version is the stored version plus
one as integers, and calls `Change` exactly when moreover the conversion succeeds; when
the stored version is the greatest `int`, every notification is skipped as stale. -/
theorem exact_gate {σ F Ev Ch E : Type} (fs : Filesystem σ F Ch E)
    (FileChanges : List Ev → F → Except E Ch)
    (params : DidChangeTextDocumentParams Ev) (st : σ) (f : F)
    (hget : fs.GetFile st params.TextDocument = .ok f) :
    ((∃ c ∈ (TextDocumentDidChange (.ok fs) FileChanges params st).calls,
        c.isFileChanges = true) ↔
      params.TextDocument.Version.val = (fs.Version f).val + 1) ∧
    ((∃ c ∈ (TextDocumentDidChange (.ok fs) FileChanges params st).calls,
        c.isChange = true) ↔
      (params.TextDocument.Version.val = (fs.Version f).val + 1 ∧
        ∃ changes, FileChanges params.ContentChanges f = .ok changes)) ∧
    ((fs.Version f).val = 2 ^ 63 - 1 →
      TextDocumentDidChange (.ok fs) FileChanges params st =
        ⟨none, st,
         [.GetFile params.TextDocument,
          .Printf "skip old version %d change: %#v, current file version %d"
            params.TextDocument.Version (fs.Version f)]⟩) := by
  have hgate := gate_open_iff params.TextDocument.Version (fs.Version f)
  have hn := params.TextDocument.Version.property
  by_cases h1 : params.TextDocument.Version.val ≤ (fs.Version f).val
  · have hr : TextDocumentDidChange (.ok fs) FileChanges params st =
        ⟨none, st,
         [.GetFile params.TextDocument,
          .Printf "skip old version %d change: %#v, current file version %d"
            params.TextDocument.Version (fs.Version f)]⟩ := by
      simp only [TextDocumentDidChange, hget, h1, if_true]
    rw [hr]
    refine ⟨?_, ?_, fun _ => rfl⟩
    · constructor
      · rintro ⟨c, hc, hcf⟩
        simp only [List.mem_cons, List.mem_singleton, List.not_mem_nil, or_false] at hc
        rcases hc with rfl | rfl <;> cases hcf
      · intro h
        omega
    · constructor
      · rintro ⟨c, hc, hcf⟩
        simp only [List.mem_cons, List.mem_singleton, List.not_mem_nil, or_false] at hc
        rcases hc with rfl | rfl <;> cases hcf
      · rintro ⟨h, -⟩
        omega
  · have hmax : ¬ (fs.Version f).val = 2 ^ 63 - 1 := by omega
    by_cases h2 : params.TextDocument.Version.val > wrapInt64 ((fs.Version f).val + 1)
    · have hr : TextDocumentDidChange (.ok fs) FileChanges params st =
          ⟨none, st,
           [.GetFile params.TextDocument,
            .Printf "missing version %d change: %#v, current file version %d"
              params.TextDocument.Version (fs.Version f)]⟩ := by
        simp only [TextDocumentDidChange, hget, h1, h2, if_true, if_false]
      have hne : ¬ params.TextDocument.Version.val = (fs.Version f).val + 1 :=
        fun h => (hgate.mpr h).2 h2
      rw [hr]
      refine ⟨?_, ?_, fun h => absurd h hmax⟩
      · constructor
        · rintro ⟨c, hc, hcf⟩
          simp only [List.mem_cons, List.mem_singleton, List.not_mem_nil, or_false] at hc
          rcases hc with rfl | rfl <;> cases hcf
        · intro h
          exact absurd h hne
      · constructor
        · rintro ⟨c, hc, hcf⟩
          simp only [List.mem_cons, List.mem_singleton, List.not_mem_nil, or_false] at hc
          rcases hc with rfl | rfl <;> cases hcf
        · rintro ⟨h, -⟩
          exact absurd h hne
    · have heq : params.TextDocument.Version.val = (fs.Version f).val + 1 :=
        hgate.mp ⟨h1, h2⟩
      cases hconv : FileChanges params.ContentChanges f with
      | error err =>
        have hr : TextDocumentDidChange (.ok fs) FileChanges params st =
            ⟨some err, st,
             [.GetFile params.TextDocument, .FileChanges params.ContentChanges]⟩ := by
          simp only [TextDocumentDidChange, hget, h1, h2, if_false, hconv]
        rw [hr]
        refine ⟨?_, ?_, fun h => absurd h hmax⟩
        · exact ⟨fun _ => heq, fun _ => ⟨_, List.mem_cons_of_mem _ (List.mem_singleton_self _), rfl⟩⟩
        · constructor
          · rintro ⟨c, hc, hcf⟩
            simp only [List.mem_cons, List.mem_singleton, List.not_mem_nil, or_false] at hc
            rcases hc with rfl | rfl <;> cases hcf
          · rintro ⟨-, changes, hch⟩
            cases hch
      | ok changes =>
        have hr : TextDocumentDidChange (.ok fs) FileChanges params st =
            ⟨(fs.Change st params.TextDocument changes).2,
             (fs.Change st params.TextDocument changes).1,
             [.GetFile params.TextDocument, .FileChanges params.ContentChanges,
              .Change params.TextDocument changes]⟩ := by
          simp only [TextDocumentDidChange, hget, h1, h2, if_false, hconv]
        rw [hr]
        refine ⟨?_, ?_, fun h => absurd h hmax⟩
        · exact ⟨fun _ => heq, fun _ => ⟨.FileChanges params.ContentChanges, by simp, rfl⟩⟩
        · exact ⟨fun _ => ⟨heq, changes, rfl⟩,
            fun _ => ⟨.Change params.TextDocument changes, by simp, rfl⟩⟩

/-! ## Theorems: `PrefixRange` and `SetPrefix` -/

/-- C20 (start of the prefix range): the start of the prefix range has byte offset 0 and
the range has no file name, whatever the position; its end is the position; the column
of its start is Go's `pos.Column - len(prefix)`, with no lower clamp: for every column
from 0 on (and whenever the subtraction does not wrap around) it is this difference as
an integer and is below 1 exactly when `len(prefix) >= pos.Column`; `SetPrefix` changes
the prefix only, and the range is then the one of the new prefix.  The length of a Go
string is an `int`, which is the bound on `len`. -/
theorem prefix_range_start {LS MC : Type} (bt : completableBlockType LS MC) (q : String) :
    bt.PrefixRange.Start.Byte.val = 0 ∧
    bt.PrefixRange.Filename = "" ∧
    bt.PrefixRange.End = bt.pos ∧
    bt.PrefixRange.Start.Line = bt.pos.Line ∧
    bt.PrefixRange.Start.Column = GoInt.ofInt (bt.pos.Column.val - len bt.pfx) ∧
    (0 ≤ bt.pos.Column.val → len bt.pfx < 2 ^ 63 →
      bt.PrefixRange.Start.Column.val = bt.pos.Column.val - len bt.pfx ∧
      (bt.PrefixRange.Start.Column.val < 1 ↔ len bt.pfx ≥ bt.pos.Column.val)) ∧
    (-(2 ^ 63) ≤ bt.pos.Column.val - len bt.pfx →
      bt.PrefixRange.Start.Column.val = bt.pos.Column.val - len bt.pfx ∧
      (bt.PrefixRange.Start.Column.val < 1 ↔ len bt.pfx ≥ bt.pos.Column.val)) ∧
    (bt.SetPrefix q).pfx = q ∧
    (bt.SetPrefix q).TypeName = bt.TypeName ∧
    (bt.SetPrefix q).LabelSchema = bt.LabelSchema ∧
    (bt.SetPrefix q).documentation = bt.documentation ∧
    (bt.SetPrefix q).pos = bt.pos ∧
    (bt.SetPrefix q).PrefixRange.End = bt.pos ∧
    (bt.SetPrefix q).PrefixRange.Start.Column = GoInt.ofInt (bt.pos.Column.val - len q) ∧
    (0 ≤ bt.pos.Column.val → len q < 2 ^ 63 →
      (bt.SetPrefix q).PrefixRange.Start.Column.val = bt.pos.Column.val - len q) ∧
    (-(2 ^ 63) ≤ bt.pos.Column.val - len q →
      (bt.SetPrefix q).PrefixRange.Start.Column.val = bt.pos.Column.val - len q) := by
  have hcol := bt.pos.Column.property
  have hmath : ∀ s : String, -(2 ^ 63) ≤ bt.pos.Column.val - len s →
      wrapInt64 (bt.pos.Column.val - len s) = bt.pos.Column.val - len s := by
    intro s h
    have := len_nonneg s
    exact wrapInt64_of_range _ h (by omega)
  have hiff : -(2 ^ 63) ≤ bt.pos.Column.val - len bt.pfx →
      bt.PrefixRange.Start.Column.val = bt.pos.Column.val - len bt.pfx ∧
      (bt.PrefixRange.Start.Column.val < 1 ↔ len bt.pfx ≥ bt.pos.Column.val) := by
    intro h
    have hval : bt.PrefixRange.Start.Column.val = bt.pos.Column.val - len bt.pfx :=
      hmath _ h
    refine ⟨hval, ?_⟩
    rw [hval]
    constructor <;> intro h' <;> omega
  refine ⟨rfl, rfl, rfl, rfl, rfl, ?_, hiff, rfl, rfl, rfl, rfl, rfl, rfl, rfl, ?_, hmath q⟩
  · intro h0 hlen
    exact hiff (by omega)
  · intro h0 hlen
    exact hmath q (by omega)

/-- The subtraction of `PrefixRange` wraps around only below column 0: at the column
`-2^63`, which no position has, and the word `r`, the column of the start is
`2^63 - 1`. -/
theorem prefix_range_wraps_at_least_column :
    leastColumnCandidate.pos.Column.val = -(2 ^ 63) ∧
    leastColumnCandidate.PrefixRange.Start.Column.val = 2 ^ 63 - 1 := by
  decide

/-- Witness of `stale_skip`: version 3 arrives for a document stored at version 4. -/
theorem stale_skip_witness :
    (didChange acceptAll (notification 3 [.full "x"]) storeAt4).err = none ∧
    (didChange acceptAll (notification 3 [.full "x"]) storeAt4).fs = storeAt4 :=
  have h := stale_skip storeFilesystem acceptAll (notification 3 [.full "x"]) storeAt4
    { text := "resource", version := GoInt.ofInt 4 } rfl (by decide)
  ⟨h.1, h.2.1⟩

/-- Witness of `gap_skip`: version 6 arrives for a document stored at version 4. -/
theorem gap_skip_witness :
    (didChange acceptAll (notification 6 [.full "x"]) storeAt4).err = none ∧
    (didChange acceptAll (notification 6 [.full "x"]) storeAt4).fs = storeAt4 :=
  have h := gap_skip storeFilesystem acceptAll (notification 6 [.full "x"]) storeAt4
    { text := "resource", version := GoInt.ofInt 4 } rfl (by decide)
  ⟨h.1, h.2.1⟩

/-- Witness of `apply_next_version`: version 5 arrives for a document stored at
version 4 and inserts at the end of the text. -/
theorem apply_next_version_witness :
    (didChange acceptAll (notification 5 [.range 8 8 " x"]) storeAt4).err = none ∧
    (didChange acceptAll (notification 5 [.range 8 8 " x"]) storeAt4).fs "main.tf" =
      some { text := "resource x", version := GoInt.ofInt 5 } :=
  have h := apply_next_version acceptAll (notification 5 [.range 8 8 " x"]) storeAt4
    { text := "resource", version := GoInt.ofInt 4 } [.range 8 8 " x"] "resource x"
    rfl (by decide) rfl rfl
  ⟨h.1, h.2.1⟩

/-- Witness of `atomic_commit`: version 5 arrives for a document stored at version 4
with a range that ends beyond the text. -/
theorem atomic_commit_witness :
    (didChange acceptAll (notification 5 [.full "ab", .range 1 9 "x"]) storeAt4).err =
      some (.rangeOutOfBounds 1 9 2) ∧
    (didChange acceptAll (notification 5 [.full "ab", .range 1 9 "x"]) storeAt4).fs =
      storeAt4 :=
  have h := atomic_commit acceptAll (notification 5 [.full "ab", .range 1 9 "x"]) storeAt4
    { text := "resource", version := GoInt.ofInt 4 } (.rangeOutOfBounds 1 9 2)
    rfl (by decide) (Or.inr ⟨[.full "ab", .range 1 9 "x"], rfl, by decide⟩)
  ⟨h.1, h.2.1⟩

/-- Witness of `version_monotone`: the first of three notifications for a document
stored at version 4. -/
theorem version_monotone_witness :
    ∃ v', (didChangeAll acceptAll storeAt4
      (List.take (0 + 1) [notification 5 [.full "a"], notification 3 [], notification 7 []])
      ).versionOf "main.tf" = some v' ∧ (4 : Int) ≤ v' :=
  version_monotone acceptAll storeAt4
    [notification 5 [.full "a"], notification 3 [], notification 7 []] "main.tf" 0 4 rfl

/-- C6 as stated fails: versions 5 and 6 both occur and 7 does not, so the top of the
unbroken chain from the stored version 4 is 6; processed in the order 6, 5, version 6 is
skipped as a gap and the final stored version is 5, not 6, while no call returns an
error. -/
theorem chain_final_counterexample :
    (∀ k : Int, 4 < k → k ≤ 6 →
      k ∈ incomingVersions [notification 6 [.full "b"], notification 5 [.full "a"]]) ∧
    (6 + 1 : Int) ∉ incomingVersions [notification 6 [.full "b"], notification 5 [.full "a"]] ∧
    (didChangeAll acceptAll storeAt4
      [notification 6 [.full "b"], notification 5 [.full "a"]]).versionOf "main.tf" = some 5 ∧
    (didChangeAll acceptAll storeAt4
      [notification 6 [.full "b"], notification 5 [.full "a"]]).versionOf "main.tf" ≠ some 6 ∧
    didChangeErrors acceptAll storeAt4
      [notification 6 [.full "b"], notification 5 [.full "a"]] = [none, none] := by
  refine ⟨?_, by decide, rfl, by decide, rfl⟩
  intro k h1 h2
  have hk : k = 5 ∨ k = 6 := by omega
  rcases hk with rfl | rfl <;> decide

/-- Witness of `chain_final_version`: versions 5, 5, 6, 8 processed in this order against
a document stored at version 4 end at version 6. -/
theorem chain_final_version_witness :
    (didChangeAll acceptAll storeAt4
      [notification 5 [.full "a"], notification 5 [.full "b"], notification 6 [.range 0 1 "c"],
       notification 8 [.full "d"]]).versionOf "main.tf" = some 6 :=
  (chain_final_version acceptAll "main.tf"
    [notification 5 [.full "a"], notification 5 [.full "b"], notification 6 [.range 0 1 "c"],
     notification 8 [.full "d"]] storeAt4 { text := "resource", version := GoInt.ofInt 4 } 6
    rfl (by decide) (by decide) (by decide) (by decide) (by decide)).2 (by decide)

/-- Witness of `unknown_type_rejected`: the tokens of `foo "bar" \x7b\x7d`. -/
theorem unknown_type_rejected_witness :
    ((newParser : parser Unit).ParseBlockFromTokens wordFactories id wordParse
      ["foo", "\"bar\"", "\x7b", "\x7d"]).result =
      .returned none (some (.unknownBlockTypeErr "foo")) :=
  ((unknown_type_rejected wordFactories id wordParse (newParser : parser Unit)
    ["foo", "\"bar\"", "\x7b", "\x7d"]).1 "foo" (by decide) rfl (by decide)).1

/-- Witness of `unknown_type_nil_block`: on the tokens of `foo = 1`, whose leading
keyword `foo` is not registered, the call panics, while the tokens of `foo "bar"` and a
pair of braces give the `unknownBlockTypeErr`. -/
theorem unknown_type_nil_block_witness :
    ((newParser : parser Unit).ParseBlockFromTokens wordFactories id itemParse
      ["foo", "=", "1"]).result = .panicked ∧
    ((newParser : parser Unit).ParseBlockFromTokens wordFactories id itemParse
      ["foo", "\"bar\"", "\x7b", "\x7d"]).result =
      .returned none (some (.unknownBlockTypeErr "foo")) :=
  ⟨(unknown_type_nil_block wordFactories id itemParse (newParser : parser Unit)
    ["foo", "=", "1"] (by decide) rfl).1, rfl⟩

/-- Witness of `factory_dispatch`: a resource block with one label only is rejected by
the factory of resources, and the error is wrapped with the block type. -/
theorem factory_dispatch_witness :
    ((newParser : parser Unit).ParseBlockFromTokens wordFactories id wordParse
      ["resource", "aws_instance"]).result =
      .returned none (some (.wrapError "resource: missing label" "missing label")) :=
  ((factory_dispatch wordFactories id wordParse (newParser : parser Unit)
    ["resource", "aws_instance"] "resource"
    (.resourceBlockFactory (newParser : parser Unit).logger none)
    (by decide) rfl rfl).2.2 none "missing label" rfl).1

/-- Witness of `empty_input`: on the single token `provider` the result is not
`EmptyConfigErr`. -/
theorem empty_input_witness :
    ((newParser : parser Unit).ParseBlockFromTokens wordFactories id wordParse
      ["provider"]).result ≠ .returned none (some .EmptyConfigErr) :=
  (empty_input wordFactories id wordParse (newParser : parser Unit)).2.2
    ["provider"] none (by decide)

/-- Witness of `completion_filter`: the word `resou` and the map visited in the order
`data`, `provider`, `resource`. -/
theorem completion_filter_witness :
    ((newParser : parser Unit).BlockTypeCandidates wordFactories lastWord
      ["data", "provider", "resource"] ["resou"] cursor).map completableBlockType.Label =
      ["resource"] :=
  (completion_filter wordFactories lastWord ["data", "provider", "resource"]
    (newParser : parser Unit) ["resou"] cursor (by decide)).2.1 rfl

/-- Witness of `prefix_range_invariant`: the candidate for the word `resou` at line 1,
column 6 has the prefix range from column 1 to column 6. -/
theorem prefix_range_invariant_witness :
    resouCandidate.PrefixRange.Start.Column.val = 1 ∧
    resouCandidate.PrefixRange.End.Column.val = 6 :=
  (prefix_range_invariant wordFactories lastWord ["data", "provider", "resource"]
    (newParser : parser Unit) ["resou"] cursor resouCandidate
    (List.mem_singleton_self _)).2.2.2.2.2 rfl (by decide)

/-- Witness of `release_version_acceptance`: the text `0.12`, padded to 0.12.0, is
accepted. -/
theorem release_version_acceptance_witness :
    ParserSupportsTerraform goVersionLibrary "0.12" = none :=
  (release_version_acceptance "0.12" { segments := [0, 12, 0], pre := "", metadata := "" }
    rfl rfl).mpr (by decide)

/-- Witness of `prerelease_version_rejected`: the version 0.13.0-beta1. -/
theorem prerelease_version_rejected_witness :
    ParserSupportsTerraform goVersionLibrary "0.13.0-beta1" =
      some (.UnsupportedTerraformVersion "parser" "0.13.0-beta1" constraint_0_12_0) :=
  prerelease_version_rejected "0.13.0-beta1"
    { segments := [0, 13, 0], pre := "beta1", metadata := "" } rfl (by decide)

/-- Witness of `unsupported_payload`: the version 0.11.14 is below the constraint. -/
theorem unsupported_payload_witness :
    ParserSupportsTerraform goVersionLibrary "0.11.14" =
      some (.UnsupportedTerraformVersion "parser" "0.11.14" constraint_0_12_0) :=
  unsupported_payload goVersionLibrary "0.11.14"
    { segments := [0, 11, 14], pre := "", metadata := "" } constraint_0_12_0 rfl rfl rfl

/-- Witness of `invalid_version`: the text `abc` is not a version. -/
theorem invalid_version_witness :
    ParserSupportsTerraform goVersionLibrary "abc" = some (.library (.InvalidVersion "abc")) :=
  (invalid_version goVersionLibrary "abc" (.InvalidVersion "abc") ([] : ParserHeap Unit) rfl).1

/-- Witness of `acquire_agrees`: on the version 0.12.0 and with nothing allocated so far,
the parser returned is the first object. -/
theorem acquire_agrees_witness :
    (FindCompatibleParser goVersionLibrary "0.12.0" ([] : ParserHeap Unit)).1 = (some 0, none) :=
  ((acquire_agrees goVersionLibrary "0.12.0" ([] : ParserHeap Unit)).2.2 (by decide)).1

/-- Witness of `candidate_contents`: the candidate for the word `resou`. -/
theorem candidate_contents_witness :
    ∃ f, (newParser : parser Unit).blockTypes.lookup resouCandidate.Label = some f ∧
      resouCandidate.Label ∈ ["provider", "resource", "data"] ∧
      resouCandidate.Snippet (fun name labels => name ++ " " ++ toString labels) =
        (fun name labels => name ++ " " ++ toString labels) resouCandidate.Label
          (wordFactories.LabelSchema f) ∧
      resouCandidate.Documentation = wordFactories.Documentation f ∧
      resouCandidate.Detail = "" :=
  candidate_contents wordFactories lastWord (fun name labels => name ++ " " ++ toString labels)
    ["data", "provider", "resource"] (newParser : parser Unit) ["resou"] cursor resouCandidate
    (List.mem_singleton_self _)

/-- Witness of `registry_contents`: the keyword `module` is not registered. -/
theorem registry_contents_witness :
    ((newParser : parser Unit).SetLogger stderrLog).blockTypes.lookup "module" = none :=
  (registry_contents ((newParser : parser Unit).SetLogger stderrLog)).2.2.2.2.2.1 "module"
    (by decide)

/-- Witness of `exact_gate`: against a document stored at the greatest version, the
notification whose version is the wrapped successor is skipped as stale. -/
theorem exact_gate_witness :
    (didChange acceptAll (notification (-(2 ^ 63)) [.full "x"]) storeAtMax).calls =
      [.GetFile { URI := "main.tf", Version := GoInt.ofInt (-(2 ^ 63)) },
       .Printf "skip old version %d change: %#v, current file version %d"
         (GoInt.ofInt (-(2 ^ 63))) (GoInt.ofInt (2 ^ 63 - 1))] :=
  congrArg Outcome.calls
    ((exact_gate storeFilesystem acceptAll (notification (-(2 ^ 63)) [.full "x"]) storeAtMax
      { text := "resource", version := GoInt.ofInt (2 ^ 63 - 1) } rfl).2.2 (by decide))

/-- Witness of `prefix_range_start`: for the word `resou` at column 6 the start is in
column 1, which is not below 1. -/
theorem prefix_range_start_witness :
    resouCandidate.PrefixRange.Start.Column.val = 1 ∧
    (resouCandidate.PrefixRange.Start.Column.val < 1 ↔
      len resouCandidate.pfx ≥ resouCandidate.pos.Column.val) :=
  (prefix_range_start resouCandidate "re").2.2.2.2.2.1 (by decide) (by decide)

end TerraformLS
